import Mathlib

/-!
Shallow embedding of the pagination-aware PDF export engine
(footnote plan builder, text flow layout, footer sizing controller,
page-offset reconciler, document graph editor) together with proofs
of the specified properties.

External collaborators (the Chromium renderer, the pdf-lib font metric
query `font.widthOfTextAtSize`, `decodeURIComponent` /
`encodeURIComponent`, PDF name validation) are modelled as oracle
parameters: arbitrary functions supplied to the embedded definitions.
JavaScript machine numbers used for page counts and millimetre/point
values are modelled as `Nat` / `Int` / `Rat` as appropriate.
-/

namespace WikiPdfExport

/-- Character class of the JavaScript `\s` regex class (WhiteSpace and
LineTerminator productions): used by `String.prototype.trim`, `/\s/`
tests and `/\s+/g` replacements in the source. -/
def jsIsSpace (c : Char) : Bool :=
  c = ' ' || c = '\t' || c = '\n' || c = '\r' || c = '\x0b' || c = '\x0c' ||
  c = ' ' || c = '﻿' || c = ' ' ||
  (' ' ≤ c && c ≤ ' ') ||
  c = ' ' || c = ' ' || c = ' ' || c = ' ' || c = '　'

/-- JavaScript `String.prototype.trim`: strip `\s` characters from both ends. -/
def jsTrim (s : String) : String :=
  ⟨(s.data.dropWhile jsIsSpace).reverse.dropWhile jsIsSpace |>.reverse⟩

/-- Remove every JavaScript-whitespace character from a string
(used to state text-content preservation). -/
def stripJsWs (s : String) : String :=
  ⟨s.data.filter (fun c => !jsIsSpace c)⟩

/-- JavaScript `String.prototype.startsWith` (on code points). -/
def jsStartsWith (s pre : String) : Bool :=
  pre.data.isPrefixOf s.data

/-- `true` for the characters the sanitizer keeps: `[a-z0-9_-]`. -/
def isSafeTokenChar (c : Char) : Bool :=
  ('a' ≤ c && c ≤ 'z') || ('0' ≤ c && c ≤ '9') || c = '_' || c = '-'

/-- One step of the global regex replacement `[^a-z0-9_-]+ -> "-"`:
a safe character is kept, an unsafe run contributes a single `'-'`.
The boolean records whether the previous character was part of an
unsafe run. -/
def collapseUnsafeStep (acc : List Char × Bool) (c : Char) : List Char × Bool :=
  if isSafeTokenChar c then (acc.1 ++ [c], false)
  else if acc.2 then acc
  else (acc.1 ++ ['-'], true)

/-- `value.replace(/[^a-z0-9_-]+/g, '-')` on an exploded string. -/
def collapseUnsafeRuns (l : List Char) : List Char :=
  (l.foldl collapseUnsafeStep ([], false)).1

/-- `value.replace(/^-+|-+$/g, '')`: strip leading and trailing dashes. -/
def stripOuterDashes (l : List Char) : List Char :=
  ((l.dropWhile (· = '-')).reverse.dropWhile (· = '-')).reverse

/-- `sanitizeFootnoteToken` from the source: lower-case the trimmed value,
collapse non-`[a-z0-9_-]` runs to `-`, strip outer dashes, truncate to 48
characters, and fall back when the result is empty. -/
def sanitizeFootnoteToken (value : String) (fallback : String) : String :=
  let source : List Char := (jsTrim value).data.map Char.toLower
  let safe : List Char :=
    (stripOuterDashes (collapseUnsafeRuns source)).take 48
  if safe.isEmpty then fallback else ⟨safe⟩

/-- A rich-text footnote segment: a run of text with an optional hyperlink. -/
structure Segment where
  text : String
  href : Option String
  deriving Repr, DecidableEq

/-- Leading-whitespace trim used on the first prepared segment
(`/^[\s\r\n]+/` — the class equals `\s` since `\r`,`\n` ∈ `\s`). -/
def dropLeadingWs (s : String) : String := ⟨s.data.dropWhile jsIsSpace⟩

/-- Trailing-whitespace trim used on the last prepared segment. -/
def dropTrailingWs (s : String) : String :=
  ⟨(s.data.reverse.dropWhile jsIsSpace).reverse⟩

/-- Apply `f` to the last element of a list. -/
def mapLast {α : Type} (f : α → α) : List α → List α
  | [] => []
  | [x] => [f x]
  | x :: y :: xs => x :: mapLast f (y :: xs)

/-- Coalescing fold of `cloneFootnoteSegments`: empty-text segments are
skipped and a segment with the same `href` as the previous one is merged
into it.  The accumulator is kept in reverse order. -/
def coalesceSegsStep (acc : List Segment) (seg : Segment) : List Segment :=
  if seg.text = "" then acc
  else
    match acc with
    | last :: rest =>
        if last.href = seg.href then
          { last with text := last.text ++ seg.text } :: rest
        else seg :: last :: rest
    | [] => [seg]

/-- `cloneFootnoteSegments` from the source: normalize raw definition
segments (drop empties, trim the outer whitespace of the first/last
segment, re-drop empties, merge adjacent segments with the same href). -/
def cloneFootnoteSegments (segments : List Segment) : List Segment :=
  let prepared := segments.filter (fun s => s.text ≠ "")
  let trimmed :=
    match prepared with
    | [] => []
    | x :: xs =>
        mapLast (fun (s : Segment) => { s with text := dropTrailingWs s.text })
          ({ x with text := dropLeadingWs x.text } :: xs)
  (trimmed.foldl coalesceSegsStep []).reverse

/-- Collapse `\s+` runs to a single space (the `/\s+/g -> ' '` replacement
inside `buildFootnoteSegmentsKey`). -/
def collapseWsStep (acc : List Char × Bool) (c : Char) : List Char × Bool :=
  if jsIsSpace c then
    if acc.2 then acc else (acc.1 ++ [' '], true)
  else (acc.1 ++ [c], false)

/-- `text.replace(/\s+/g, ' ')`. -/
def collapseWsRuns (s : String) : String :=
  ⟨(s.data.foldl collapseWsStep ([], false)).1⟩

/-- `buildFootnoteSegmentsKey` from the source: a canonical string key
for one definition's normalized content. -/
def buildFootnoteSegmentsKey (segments : List Segment) : String :=
  let normalized := cloneFootnoteSegments segments
  if normalized.isEmpty then "__EMPTY__"
  else
    String.intercalate "|"
      (normalized.map fun seg =>
        let href := match seg.href with
          | some h => jsTrim h
          | none => ""
        let text := jsTrim (collapseWsRuns seg.text)
        href ++ "::" ++ text)

/-- `formatFootnoteNumberLabel`: comma-join the positive numbers
(numbers are naturals here, so finiteness/truncation are vacuous). -/
def formatFootnoteNumberLabel (numbers : List Nat) : String :=
  String.intercalate ", "
    ((numbers.filter (0 < ·)).map (fun n => toString n))

/-- Association list with JavaScript `Map` semantics: `get` finds the
entry for a key, `set` updates it in place or appends a new entry
(preserving insertion order). -/
def alistGet {α β : Type} [DecidableEq α] (l : List (α × β)) (k : α) : Option β :=
  (l.find? (fun e => e.1 = k)).map (·.2)

/-- `Map.set`: overwrite the existing entry or append. -/
def alistSet {α β : Type} [DecidableEq α] : List (α × β) → α → β → List (α × β)
  | [], k, v => [(k, v)]
  | (k', v') :: rest, k, v =>
      if k' = k then (k, v) :: rest else (k', v') :: alistSet rest k v

/-- Update the element at index `i` (identity when out of range). -/
def listModify {α : Type} (l : List α) (i : Nat) (f : α → α) : List α :=
  match l.get? i with
  | some x => l.set i (f x)
  | none => l

/-- One in-body citation mark: `(refIndex, targetId)` in document order. -/
structure FootnoteRef where
  refIndex : Nat
  targetId : String
  deriving Repr, DecidableEq

/-- One `(refIndex → newNumber/newLabel/destName)` rewrite returned by
the plan builder. -/
structure RefUpdate where
  refIndex : Nat
  newNumber : Nat
  newLabel : String
  destName : String
  deriving Repr, DecidableEq

/-- The mutable per-page footnote item of `buildFootnotePagePlan`'s
running state. -/
structure PlanItem where
  targetId : String
  targetIds : List String
  number : Nat
  numberLabel : String
  numbers : List Nat
  lastAssignedNumber : Option Nat
  destName : String
  segments : List Segment
  deriving Repr, DecidableEq

/-- The running state for one page.  JavaScript holds item *references*
in `byTargetId` / `byDefinitionKey`; here those maps hold indices into
`items`. -/
structure PageEntry where
  page : Nat
  items : List PlanItem
  byTargetId : String → Option Nat
  byDefinitionKey : String → Option Nat
  nextNumber : Nat

/-- The accumulating state of `buildFootnotePagePlan`. -/
structure PlanState where
  pages : List (Nat × PageEntry)
  refUpdates : List RefUpdate
  unresolvedRefs : List Nat
  destinationCounter : Nat

def emptyPageEntry (page : Nat) : PageEntry :=
  { page := page, items := [], byTargetId := fun _ => none,
    byDefinitionKey := fun _ => none, nextNumber := 1 }

/-- `markerPages.get(ref.refIndex)` followed by the truthiness check
`if (!page)`: an absent entry and page `0` both count as unresolved. -/
def resolveMarkerPage (mp : Nat → Option Nat) (i : Nat) : Option Nat :=
  match mp i with
  | some p => if p = 0 then none else some p
  | none => none

/-- `Array.isArray(definitionSegments) && definitionSegments.length > 0`
(map values are lists here, so only presence and non-emptiness remain). -/
def hasFootnoteDefinition (defs : String → Option (List Segment))
    (tid : String) : Bool :=
  match defs tid with
  | some (_ :: _) => true
  | _ => false

/-- The body a reference contributes: the cloned definition segments, or
the placeholder segment when the definition is missing or empty. -/
def effectiveFootnoteSegments (defs : String → Option (List Segment))
    (tid : String) : List Segment :=
  match defs tid with
  | some (s :: rest) => cloneFootnoteSegments (s :: rest)
  | _ => [⟨"(footnote text unavailable)", none⟩]

/-- `definitionGroupKey` of one reference. -/
def definitionGroupKeyOf (defs : String → Option (List Segment))
    (tid : String) : Option String :=
  if hasFootnoteDefinition defs tid then
    some ("definition:" ++ buildFootnoteSegmentsKey (effectiveFootnoteSegments defs tid))
  else none

/-- `isContiguous`: the candidate item exists and its last assigned
number is exactly one less than the number about to be assigned.
(`m + 1 = assignedNumber` matches the JS `m === assignedNumber - 1`;
`assignedNumber ≥ 1` always holds since `nextNumber` starts at 1.) -/
def itemIsContiguous (items : List PlanItem) (assignedNumber : Nat) :
    Option Nat → Bool
  | none => false
  | some i =>
      match items.get? i with
      | some it =>
          match it.lastAssignedNumber with
          | some m => decide (m + 1 = assignedNumber)
          | none => false
      | none => false

/-- Candidate selection of lines 565–574: try `byTargetId`, then (only
when it failed and a definition key exists) `byDefinitionKey`; each
candidate must pass the contiguity test. -/
def planMergeCandidate (entry : PageEntry) (assignedNumber : Nat)
    (tid : String) (groupKey : Option String) : Option Nat :=
  let c0 := entry.byTargetId tid
  let c1 := if itemIsContiguous entry.items assignedNumber c0 then c0 else none
  match c1 with
  | some i => some i
  | none =>
      match groupKey with
      | some k =>
          let c2 := entry.byDefinitionKey k
          if itemIsContiguous entry.items assignedNumber c2 then c2 else none
      | none => none

/-- Lines 601–604: push the assigned number onto the item and refresh
its derived fields. -/
def pushAssignedNumber (assignedNumber : Nat) (it : PlanItem) : PlanItem :=
  let numbers := it.numbers ++ [assignedNumber]
  { it with numbers := numbers,
            number := numbers.headD 0,
            numberLabel := formatFootnoteNumberLabel numbers,
            lastAssignedNumber := some assignedNumber }

/-- Lines 593–598: record the reference's target id on a reused item
(the `Array.isArray` guard is vacuous in this typed model). -/
def addRefTargetId (tid : String) (it : PlanItem) : PlanItem :=
  if it.targetIds.contains tid then it
  else { it with targetIds := it.targetIds ++ [tid] }

/-- The shared tail of one `buildFootnotePagePlan` iteration: push the
assigned number onto the (new or reused) item at `idx`, refresh its
derived fields, point both lookup maps at it, write the entry back and
record the reference rewrite. -/
def finishPlanStep (s : PlanState) (page : Nat) (entry : PageEntry)
    (idx : Nat) (assignedNumber : Nat) (ref : FootnoteRef)
    (groupKey : Option String) (newCounter : Nat) : PlanState :=
  let entry := { entry with
    items := listModify entry.items idx (pushAssignedNumber assignedNumber) }
  let destNameOfItem := (((entry.items.get? idx).map (·.destName)).getD "")
  let entry := { entry with
      byTargetId := fun k =>
        if k = ref.targetId then some idx else entry.byTargetId k,
      byDefinitionKey := fun k =>
        match groupKey with
        | some g => if k = g then some idx else entry.byDefinitionKey k
        | none => entry.byDefinitionKey k }
  { s with
    pages := alistSet s.pages page entry,
    refUpdates := s.refUpdates ++
      [⟨ref.refIndex, assignedNumber, toString assignedNumber, destNameOfItem⟩],
    destinationCounter := newCounter }

/-- One iteration of the `footnoteRefs.forEach` loop of
`buildFootnotePagePlan` (the `Number.isFinite(ref.refIndex)` guard is
vacuous for natural-number indices). -/
def planStep (mp : Nat → Option Nat) (defs : String → Option (List Segment))
    (s : PlanState) (ref : FootnoteRef) : PlanState :=
  match resolveMarkerPage mp ref.refIndex with
  | none => { s with unresolvedRefs := s.unresolvedRefs ++ [ref.refIndex] }
  | some page =>
      let entry := (alistGet s.pages page).getD (emptyPageEntry page)
      let assignedNumber := entry.nextNumber
      let entry := { entry with nextNumber := entry.nextNumber + 1 }
      let segments := effectiveFootnoteSegments defs ref.targetId
      let groupKey := definitionGroupKeyOf defs ref.targetId
      match planMergeCandidate entry assignedNumber ref.targetId groupKey with
      | none =>
          let safeTarget :=
            sanitizeFootnoteToken ref.targetId ("fn-" ++ toString assignedNumber)
          let newCounter := s.destinationCounter + 1
          let destName :=
            "export-footnote-" ++ toString newCounter ++ "-" ++ safeTarget
          let newItem : PlanItem :=
            { targetId := ref.targetId, targetIds := [ref.targetId],
              number := 0, numberLabel := "", numbers := [],
              lastAssignedNumber := none, destName := destName,
              segments := segments }
          let idx := entry.items.length
          let entry := { entry with items := entry.items ++ [newItem] }
          finishPlanStep s page entry idx assignedNumber ref groupKey newCounter
      | some idx =>
          let withTarget := listModify entry.items idx (addRefTargetId ref.targetId)
          let entry := { entry with items := withTarget }
          finishPlanStep s page entry idx assignedNumber ref groupKey
            s.destinationCounter

/-- A footnote item as returned to callers. -/
structure PlanOutItem where
  targetId : String
  targetIds : List String
  number : Nat
  numberLabel : String
  numbers : List Nat
  destName : String
  segments : List Segment
  deriving Repr, DecidableEq

/-- One page of the returned plan. -/
structure PagePlanOut where
  page : Nat
  items : List PlanOutItem
  deriving Repr, DecidableEq

/-- The full result of `buildFootnotePagePlan`. -/
structure FootnotePlan where
  pages : List PagePlanOut
  refUpdates : List RefUpdate
  unresolvedRefs : List Nat
  deriving Repr, DecidableEq

/-- The per-item copy taken when the plan is returned (lines 625–633);
`item.numberLabel || formatFootnoteNumberLabel(item.numbers)` falls back
exactly when the stored label is the empty string. -/
def exportPlanItem (it : PlanItem) : PlanOutItem :=
  { targetId := it.targetId,
    targetIds := it.targetIds,
    number := it.number,
    numberLabel :=
      if it.numberLabel = "" then formatFootnoteNumberLabel it.numbers
      else it.numberLabel,
    numbers := it.numbers,
    destName := it.destName,
    segments := cloneFootnoteSegments it.segments }

/-- Insert into an ascending list (helper for the numeric key sort). -/
def insertSorted (x : Nat) : List Nat → List Nat
  | [] => [x]
  | y :: ys => if x ≤ y then x :: y :: ys else y :: insertSorted x ys

/-- `Array.from(pages.keys()).sort((a, b) => a - b)`: ascending numeric
sort of the (distinct) page keys, as an insertion sort. -/
def sortKeysAsc (l : List Nat) : List Nat := l.foldr insertSorted []

/-- `buildFootnotePagePlan` from the source: fold the references through
`planStep`, then emit the pages sorted by ascending page number. -/
def buildFootnotePagePlan (refs : List FootnoteRef) (mp : Nat → Option Nat)
    (defs : String → Option (List Segment)) : FootnotePlan :=
  let final := refs.foldl (planStep mp defs) ⟨[], [], [], 0⟩
  let keys := sortKeysAsc (final.pages.map Prod.fst)
  { pages := keys.filterMap (fun p => (alistGet final.pages p).map
      (fun e => ⟨p, e.items.map exportPlanItem⟩)),
    refUpdates := final.refUpdates,
    unresolvedRefs := final.unresolvedRefs }

/-! ### Text flow layout engine

`font.widthOfTextAtSize(text, fontSizePt)` is an external metric query;
it is modelled as an oracle `measure : String → ℚ` (the fixed font and
font size are folded into the oracle). -/

/-- The tokens of `tokenizeFootnoteText`. -/
inductive FootnoteToken where
  | text (s : String)
  | space
  | newline
  deriving Repr, DecidableEq

/-- The `text` field carried by a token (`' '` for a space token). -/
def tokText : FootnoteToken → String
  | .text s => s
  | .space => " "
  | .newline => ""

/-- The composition of `replace(/\r\n/g,'\n')` and `replace(/\r/g,'\n')`:
every CRLF pair and every remaining CR becomes a single LF. -/
def normalizeNewlines : List Char → List Char
  | [] => []
  | '\r' :: '\n' :: rest => '\n' :: normalizeNewlines rest
  | '\r' :: rest => '\n' :: normalizeNewlines rest
  | c :: rest => c :: normalizeNewlines rest

/-- `replace(/ /g, ' ')`. -/
def nbspToSpace (c : Char) : Char := if c = ' ' then ' ' else c

/-- Flush the pending word buffer into a text token. -/
def flushTokenBuffer (st : List FootnoteToken × List Char) : List FootnoteToken :=
  if st.2.isEmpty then st.1 else st.1 ++ [.text ⟨st.2⟩]

/-- One character step of `tokenizeFootnoteText`'s scanner. -/
def tokenizeStep (st : List FootnoteToken × List Char) (c : Char) :
    List FootnoteToken × List Char :=
  if c = '\n' then (flushTokenBuffer st ++ [.newline], [])
  else if jsIsSpace c then
    let ts := flushTokenBuffer st
    (match ts.getLast? with
     | some .space => ts
     | _ => ts ++ [.space], [])
  else (st.1, st.2 ++ [c])

/-- `tokenizeFootnoteText` from the source. -/
def tokenizeFootnoteText (text : String) : List FootnoteToken :=
  let normalized := (normalizeNewlines text.data).map nbspToSpace
  flushTokenBuffer (normalized.foldl tokenizeStep ([], []))

/-- One glyph step of `splitWordByWidth`: extend the chunk unless the
extended chunk is non-trivial and over-wide, in which case the previous
chunk is emitted and a fresh chunk starts at this glyph. -/
def splitWordStep (measure : String → ℚ) (maxWidthPt : ℚ)
    (st : List String × String) (g : Char) : List String × String :=
  let candidate := st.2.push g
  if st.2 ≠ "" ∧ measure candidate > maxWidthPt then
    (st.1 ++ [st.2], String.singleton g)
  else (st.1, candidate)

/-- `splitWordByWidth` from the source: glyph-by-glyph chunking of an
over-wide word (glyphs = code points, as with `Array.from`). -/
def splitWordByWidth (measure : String → ℚ) (word : String)
    (maxWidthPt : ℚ) : List String :=
  if word.data.isEmpty then []
  else
    let st := word.data.foldl (splitWordStep measure maxWidthPt) ([], "")
    if st.2 = "" then st.1 else st.1 ++ [st.2]

/-- An atomic drawn run sharing one hyperlink identity. -/
structure TextFragment where
  text : String
  href : Option String
  width : ℚ
  isSpace : Bool
  deriving Repr, DecidableEq

/-- The mutable closure state of `layoutFootnoteSegments`. -/
structure LayoutState where
  lines : List (List TextFragment)
  currentLine : List TextFragment
  currentWidth : ℚ
  deriving Repr

/-- Sum of the fragment widths of a line. -/
def fragSum (l : List TextFragment) : ℚ := (l.map (·.width)).sum

/-- `trimTrailingSpaces`: pop trailing space fragments, subtracting each
popped fragment's width from the running width. -/
def trimTrailingSpaces (st : LayoutState) : LayoutState :=
  let dropped := st.currentLine.reverse.takeWhile (·.isSpace)
  { st with
    currentLine := (st.currentLine.reverse.dropWhile (·.isSpace)).reverse,
    currentWidth := st.currentWidth - (dropped.map (·.width)).sum }

/-- `commitLine(allowEmpty)`. -/
def commitLine (allowEmpty : Bool) (st : LayoutState) : LayoutState :=
  let st := trimTrailingSpaces st
  let lines :=
    if allowEmpty || !st.currentLine.isEmpty then st.lines ++ [st.currentLine]
    else st.lines
  { lines := lines, currentLine := [], currentWidth := 0 }

/-- `appendFragment(text, href, isSpace)`: empty or non-positive-width
fragments are dropped; an empty-string href degrades to `null`
(`href || null`); adjacent fragments with the same link identity and
space-ness merge. -/
def appendFragment (measure : String → ℚ) (text : String)
    (href : Option String) (isSpace : Bool) (st : LayoutState) : LayoutState :=
  if text = "" then st
  else
    let width := measure text
    if width ≤ 0 then st
    else
      let hrefN : Option String := match href with
        | some "" => none
        | x => x
      match st.currentLine.getLast? with
      | some last =>
          if last.href = hrefN ∧ last.isSpace = isSpace then
            { st with
              currentLine := mapLast
                (fun f => { f with text := f.text ++ text,
                                   width := f.width + width }) st.currentLine,
              currentWidth := st.currentWidth + width }
          else
            { st with
              currentLine := st.currentLine ++ [⟨text, hrefN, width, isSpace⟩],
              currentWidth := st.currentWidth + width }
      | none =>
          { st with
            currentLine := [⟨text, hrefN, width, isSpace⟩],
            currentWidth := st.currentWidth + width }

/-- One chunk iteration of the over-wide-word path (lines 772–781). -/
def layoutChunk (measure : String → ℚ) (maxWidthPt : ℚ) (href : Option String)
    (total : Nat) (st : LayoutState) (p : Nat × String) : LayoutState :=
  let chunkWidth := measure p.2
  let st :=
    if st.currentWidth > 0 ∧ st.currentWidth + chunkWidth > maxWidthPt then
      commitLine false st
    else st
  let st := appendFragment measure p.2 href false st
  if p.1 < total - 1 then commitLine false st else st

/-- The body of the token loop shared by space and text tokens. -/
def layoutWordOrSpace (measure : String → ℚ) (maxWidthPt : ℚ)
    (href : Option String) (text : String) (isSpace : Bool)
    (st : LayoutState) : LayoutState :=
  if text = "" then st
  else if isSpace ∧ st.currentWidth ≤ 0 then st
  else
    let width := measure text
    if ¬isSpace ∧ width > maxWidthPt then
      let chunks := splitWordByWidth measure text maxWidthPt
      chunks.enum.foldl (layoutChunk measure maxWidthPt href chunks.length) st
    else
      if st.currentWidth > 0 ∧ st.currentWidth + width > maxWidthPt then
        let st := commitLine false st
        if isSpace then st else appendFragment measure text href isSpace st
      else appendFragment measure text href isSpace st

/-- One token of the `tokens.forEach` loop. -/
def layoutToken (measure : String → ℚ) (maxWidthPt : ℚ) (href : Option String)
    (st : LayoutState) (tok : FootnoteToken) : LayoutState :=
  match tok with
  | .newline => commitLine true st
  | .space => layoutWordOrSpace measure maxWidthPt href " " true st
  | .text s => layoutWordOrSpace measure maxWidthPt href s false st

/-- One segment of the outer loop. -/
def layoutSegment (measure : String → ℚ) (maxWidthPt : ℚ)
    (st : LayoutState) (seg : Segment) : LayoutState :=
  (tokenizeFootnoteText seg.text).foldl (layoutToken measure maxWidthPt seg.href) st

/-- `layoutFootnoteSegments` from the source. -/
def layoutFootnoteSegments (measure : String → ℚ) (segments : List Segment)
    (maxWidthPt : ℚ) : List (List TextFragment) :=
  let st := segments.foldl (layoutSegment measure maxWidthPt) ⟨[], [], 0⟩
  let st := trimTrailingSpaces st
  let lines :=
    if st.currentLine.isEmpty then st.lines else st.lines ++ [st.currentLine]
  if lines.isEmpty then [[]] else lines

/-! ### Display labels, plan shifting, unit conversion -/

/-- `getFootnoteDisplayLabel` from the source:
`String(item.numberLabel || item.number || '')`, trimmed; a grouped
label (more than one positive number, or a comma already present)
renders verbatim, a single-number label gains a trailing period. -/
def getFootnoteDisplayLabel (it : PlanOutItem) : String :=
  let rawLabel := jsTrim
    (if it.numberLabel ≠ "" then it.numberLabel
     else if it.number ≠ 0 then toString it.number
     else "")
  if rawLabel = "" then ""
  else
    let explicitNumbers := it.numbers.filter (0 < ·)
    let isGroupedLabel := explicitNumbers.length > 1 || rawLabel.data.contains ','
    if isGroupedLabel then rawLabel else rawLabel ++ "."

/-- A per-page plan after the page-offset correction
(`finalPage = page + offset` may leave `Nat` range, hence `Int`). -/
structure FinalPagePlan where
  finalPage : Int
  items : List PlanOutItem
  deriving Repr, DecidableEq

/-- `shiftFootnotePlansByOffset` from the source (the `Number.isFinite`
guard on the offset is vacuous for `Int`; the per-item copy re-clones
the segments). -/
def shiftFootnotePlansByOffset (pagePlans : List PagePlanOut)
    (pageOffset : Int) : List FinalPagePlan :=
  pagePlans.map fun plan =>
    { finalPage := (plan.page : Int) + pageOffset,
      items := plan.items.map fun it =>
        { it with segments := cloneFootnoteSegments it.segments } }

/-- `MM_TO_PT = 72 / 25.4`. -/
def mmToPt (q : ℚ) : ℚ := q * (360 / 127)

/-- `ptToMm`. -/
def ptToMm (q : ℚ) : ℚ := q / (360 / 127)

/-- The per-item layout record of `layoutFootnotesForPage`. -/
structure ItemLayout where
  item : PlanOutItem
  lines : List (List TextFragment)
  heightPt : ℚ
  deriving Repr

/-- `layoutFootnotesForPage` from the source: prefix each item's cloned
segments with its display label, lay the result out, and total the
heights with one inter-item gap between consecutive items. -/
def layoutFootnotesForPage (measure : String → ℚ) (items : List PlanOutItem)
    (maxWidthPt lineHeightPt itemGapPt : ℚ) : List ItemLayout × ℚ :=
  let itemLayouts := items.map fun item =>
    let itemLabel := getFootnoteDisplayLabel item
    let segments : List Segment :=
      ⟨itemLabel ++ " ", none⟩ :: cloneFootnoteSegments item.segments
    let lines := layoutFootnoteSegments measure segments maxWidthPt
    ({ item := item, lines := lines,
       heightPt := (lines.length : ℚ) * lineHeightPt } : ItemLayout)
  let totalHeightPt :=
    (itemLayouts.map (·.heightPt)).sum + itemGapPt * ((itemLayouts.length - 1 : Nat) : ℚ)
  (itemLayouts, totalHeightPt)

/-! ### Footer sizing controller (savePdf lines 4060–4120)

The renderer and the in-browser measurement are external; the
measurement sequence is an oracle `estimate : Nat → ℚ` giving the
maximum required footer height (mm) at the k-th estimation pass.
Each recompute cycle is one render + marker re-extraction + plan rebuild
+ reference-rewrite application. -/

/-- Outcome of the footer sizing step of `savePdf`. -/
structure FooterSizingResult where
  footnoteAreaMm : ℚ
  bottomMarginMm : ℚ
  expansions : Nat
  recomputeCycles : Nat
  deriving Repr, DecidableEq

/-- The footer sizing control flow: three recompute cycles, one
measurement; if the measured requirement exceeds the reserved height by
more than `0.25` mm, the reserved height becomes `⌈measured + 1⌉`, the
bottom margin is refreshed (`applyPdfMarginState`: area + page-number
band), and three further recompute cycles plus one final measurement
run — with no second expansion regardless of the final measurement. -/
def footerSizingController (initialAreaMm pageNumberBandMm : ℚ)
    (estimate : Nat → ℚ) : FooterSizingResult :=
  let e0 := estimate 0
  if e0 > initialAreaMm + 1 / 4 then
    let grown : ℚ := ((⌈e0 + 1⌉ : ℤ) : ℚ)
    { footnoteAreaMm := grown,
      bottomMarginMm := grown + pageNumberBandMm,
      expansions := 1,
      recomputeCycles := 6 }
  else
    { footnoteAreaMm := initialAreaMm,
      bottomMarginMm := initialAreaMm + pageNumberBandMm,
      expansions := 0,
      recomputeCycles := 3 }

/-! ### Page-offset reconciler (savePdf lines 4447–4463 and 4483–4500) -/

/-- One tally step: `offsetCounts.set(delta, (offsetCounts.get(delta) || 0) + 1)`. -/
def tallyStep (counts : List (Int × Nat)) (delta : Int) : List (Int × Nat) :=
  alistSet counts delta ((alistGet counts delta).getD 0 + 1)

/-- Build the delta frequency map: for every anchor index resolved in
both the content-only render and the probe render (`0`, like a missing
entry, is falsy and counts as unresolved), tally
`delta = probePage − contentPage`.  Insertion order of the `Map` is the
order in which each distinct delta is first seen. -/
def offsetVotes (indices : List Nat) (contentMp probeMp : Nat → Option Nat) :
    List (Int × Nat) :=
  indices.foldl
    (fun counts i =>
      match resolveMarkerPage contentMp i, resolveMarkerPage probeMp i with
      | some c, some p => tallyStep counts ((p : Int) - (c : Int))
      | _, _ => counts)
    []

/-- The vote: start from the naive offset with count 0 and take any
delta whose count strictly exceeds the best so far, in map insertion
order. -/
def selectOffset (votes : List (Int × Nat)) (naive : Int) : Int :=
  (votes.foldl
    (fun (best : Int × Nat) e => if e.2 > best.2 then e else best)
    (naive, 0)).1

/-! ### Link spec resolution -/

/-- ASCII letter, as matched case-insensitively by `[a-z]` with the `i`
flag. -/
def isAsciiAlpha (c : Char) : Bool :=
  ('a' ≤ c && c ≤ 'z') || ('A' ≤ c && c ≤ 'Z')

/-- Characters of the `[a-z0-9+.-]` class (case-insensitive). -/
def isSchemeChar (c : Char) : Bool :=
  isAsciiAlpha c || ('0' ≤ c && c ≤ '9') || c = '+' || c = '.' || c = '-'

/-- Scan for the `:` terminating a scheme, allowing only scheme
characters before it. -/
def schemeTail : List Char → Bool
  | [] => false
  | c :: rest => if c = ':' then true else if isSchemeChar c then schemeTail rest else false

/-- The test `/^[a-z][a-z0-9+.-]*:/i.test(raw)`. -/
def hasUrlScheme (s : String) : Bool :=
  match s.data with
  | [] => false
  | c :: rest => isAsciiAlpha c && schemeTail rest

/-- `safeDecodeURIComponent`: `decodeURIComponent` may throw (modelled by
an oracle returning `none`), in which case the raw value is kept. -/
def safeDecodeURIComponent (decode : String → Option String) (v : String) : String :=
  (decode v).getD v

/-- The target of a link annotation. -/
inductive LinkSpec where
  | external (href : String)
  | internal (destName : String)
  deriving Repr, DecidableEq

/-- `resolveFootnoteLinkSpec` from the source.  `decode` and `encode`
are the `decodeURIComponent` / `encodeURIComponent` builtins, modelled
as oracles; `existing` is the set of destination names already known to
exist. -/
def resolveFootnoteLinkSpec (decode : String → Option String)
    (encode : String → String) (href : String) (existing : List String) :
    Option LinkSpec :=
  let raw := jsTrim href
  if raw = "" then none
  else if jsStartsWith raw "#" then
    let rawHash : String := ⟨raw.data.drop 1⟩
    if rawHash = "" then none
    else
      let decoded := safeDecodeURIComponent decode rawHash
      let encodedDecoded := encode decoded
      let candidates := ([rawHash, decoded, encodedDecoded].map jsTrim).filter (· ≠ "")
      let uniqueCandidates := candidates.eraseDups
      match uniqueCandidates.find? (fun c => existing.contains c) with
      | some c => some (.internal c)
      | none =>
          match uniqueCandidates.head? with
          | some c => some (.internal c)
          | none => none
  else if hasUrlScheme raw || jsStartsWith raw "/" then some (.external raw)
  else none

/-! ### Document graph editor

The output document is modelled as an ordered list of pages (content
stream + optional annotation array) plus an optional named-destination
dictionary in the catalog.  `PDFName.of` (which may throw on malformed
names) is an oracle `pdfNameOk`; drawing operations are recorded as
abstract content ops. -/

/-- An abstract recorded drawing operation on one page. -/
inductive PdfContentOp where
  | line (x1 y1 x2 y2 : ℚ)
  | text (s : String) (x y size : ℚ)
  | overlay (overlayPageIndex : Nat)
  deriving Repr, DecidableEq

/-- A page annotation: a link created by the exporter, or an annotation
object copied from the overlay document and re-parented. -/
inductive PdfAnnot where
  | link (rect : ℚ × ℚ × ℚ × ℚ) (target : LinkSpec)
  | fromOverlay (annotId : Nat) (parentPageIndex : Nat)
  deriving Repr, DecidableEq

/-- A named destination value: `[page.ref, 'XYZ', x, y, 0]`. -/
structure PdfDest where
  pageIndex : Nat
  x : ℚ
  y : ℚ
  deriving Repr, DecidableEq

/-- One page of the output document. -/
structure PdfPage where
  width : ℚ
  height : ℚ
  annots : Option (List PdfAnnot)
  content : List PdfContentOp
  deriving Repr, DecidableEq

/-- The output document: ordered pages and the catalog `Dests`
dictionary (`none` = the key is absent from the catalog). -/
structure PdfDoc where
  pages : List PdfPage
  dests : Option (List (String × PdfDest))
  deriving Repr, DecidableEq

/-- `Number(v.toFixed(2))`: quantize to two decimals. -/
def quantize2 (q : ℚ) : ℚ := ((round (q * 100) : ℤ) : ℚ) / 100

/-- `getPdfNameOrNull`: trim, reject the empty string, try the raw name,
then its URI-encoded form. -/
def getPdfNameOrNull (pdfNameOk : String → Bool) (encode : String → String)
    (name : String) : Option String :=
  let raw := jsTrim name
  if raw = "" then none
  else if pdfNameOk raw then some raw
  else if pdfNameOk (encode raw) then some (encode raw)
  else none

/-- Update page `i` of a document (identity when out of range). -/
def modifyPdfPage (doc : PdfDoc) (i : Nat) (f : PdfPage → PdfPage) : PdfDoc :=
  { doc with pages := listModify doc.pages i f }

/-- Record a drawing operation on page `i`. -/
def appendContentOp (doc : PdfDoc) (i : Nat) (op : PdfContentOp) : PdfDoc :=
  modifyPdfPage doc i (fun p => { p with content := p.content ++ [op] })

/-- `ensurePdfDestinationsDict`: materialize the catalog `Dests`
dictionary when absent. -/
def ensurePdfDestinationsDict (doc : PdfDoc) : PdfDoc :=
  { doc with dests := some (doc.dests.getD []) }

/-- `collectExistingDestinationNames`: the keys of the `Dests`
dictionary (keys here carry no leading slash; empty names are skipped). -/
def collectExistingDestinationNames (doc : PdfDoc) : List String :=
  ((doc.dests.getD []).map Prod.fst).filter (· ≠ "")

/-- `setPdfNamedDestination`: no-op for an invalid name, otherwise set
`[pageRef, XYZ, x, y, 0]` under the name (overwriting an existing entry
with the same name, `Map`-style). -/
def setPdfNamedDestination (pdfNameOk : String → Bool)
    (encode : String → String) (doc : PdfDoc) (destinationName : String)
    (pageIndex : Nat) (xPt yPt : ℚ) : PdfDoc :=
  match getPdfNameOrNull pdfNameOk encode destinationName with
  | none => doc
  | some key =>
      { doc with dests := some (alistSet (doc.dests.getD []) key
          ⟨pageIndex, quantize2 xPt, quantize2 yPt⟩) }

/-- `ensurePdfPageAnnotationsArray`: materialize the page's `Annots`
array when absent. -/
def ensurePdfPageAnnotationsArray (doc : PdfDoc) (i : Nat) : PdfDoc :=
  modifyPdfPage doc i (fun p => { p with annots := some (p.annots.getD []) })

/-- Push one annotation onto page `i`'s `Annots` array. -/
def pushPageAnnot (doc : PdfDoc) (i : Nat) (a : PdfAnnot) : PdfDoc :=
  modifyPdfPage doc i (fun p => { p with annots := some (p.annots.getD [] ++ [a]) })

/-- `addPdfLinkAnnot`: quantize the rectangle, reject degenerate
rectangles, reject internal links whose destination name is invalid,
then push the annotation. -/
def addPdfLinkAnnot (pdfNameOk : String → Bool)
    (encode : String → String) (doc : PdfDoc) (i : Nat)
    (rect : ℚ × ℚ × ℚ × ℚ) (linkSpec : LinkSpec) : PdfDoc :=
  let x1 := quantize2 rect.1
  let y1 := quantize2 rect.2.1
  let x2 := quantize2 rect.2.2.1
  let y2 := quantize2 rect.2.2.2
  if x2 ≤ x1 ∨ y2 ≤ y1 then doc
  else
    match linkSpec with
    | .external h => pushPageAnnot doc i (.link (x1, y1, x2, y2) (.external h))
    | .internal destName =>
        match getPdfNameOrNull pdfNameOk encode destName with
        | none => doc
        | some key => pushPageAnnot doc i (.link (x1, y1, x2, y2) (.internal key))

/-- Typographic options shared by both injection paths (all in the units
the source uses at that point). -/
structure InjectOptions where
  leftMarginMm : ℚ
  rightMarginMm : ℚ
  bottomMarginMm : ℚ
  pageNumberBandMm : ℚ
  fontSizePt : ℚ
  lineHeightMultiplier : ℚ
  itemGapPt : ℚ
  topPaddingPt : ℚ
  bottomPaddingPt : ℚ
  deriving Repr

/-- `injectFootnotesIntoPdf` from the source (the direct drawing path).
The embedded font's metric query is the `measure` oracle; drawing is
recorded as content ops.  State threaded through the loops: the
document, the known destination names, and the text cursor. -/
def injectFootnotesIntoPdf (measure : String → ℚ) (pdfNameOk : String → Bool)
    (encode : String → String) (decode : String → Option String)
    (doc0 : PdfDoc) (finalFootnotePlans : List FinalPagePlan)
    (options : InjectOptions) : PdfDoc :=
  if finalFootnotePlans.isEmpty then doc0
  else
    let leftMarginPt := mmToPt options.leftMarginMm
    let rightMarginPt := mmToPt options.rightMarginMm
    let bottomMarginPt := mmToPt options.bottomMarginMm
    let pageNumberBandPt := mmToPt options.pageNumberBandMm
    let fontSizePt := options.fontSizePt
    let lineHeightPt := fontSizePt * options.lineHeightMultiplier
    let itemGapPt := options.itemGapPt
    let topPaddingPt := options.topPaddingPt
    let bottomPaddingPt := options.bottomPaddingPt
    let footnoteTopY := bottomMarginPt - topPaddingPt
    let footnoteMinY := pageNumberBandPt + bottomPaddingPt
    let doc0 := ensurePdfDestinationsDict doc0
    let init : PdfDoc × List String := (doc0, collectExistingDestinationNames doc0)
    let final := finalFootnotePlans.foldl (fun (st : PdfDoc × List String) pagePlan =>
      let pageIndexZ : Int := pagePlan.finalPage - 1
      if pageIndexZ < 0 then st
      else
        let pageIdx := pageIndexZ.toNat
        match st.1.pages.get? pageIdx with
        | none => st
        | some page =>
            let availableWidthPt := max 40 (page.width - leftMarginPt - rightMarginPt)
            let layout := layoutFootnotesForPage measure pagePlan.items
              availableWidthPt lineHeightPt itemGapPt
            if layout.1.isEmpty then st
            else
              let doc := appendContentOp st.1 pageIdx
                (.line leftMarginPt (bottomMarginPt - 4/5)
                  (page.width - rightMarginPt) (bottomMarginPt - 4/5))
              let itemSt := layout.1.enum.foldl
                (fun (ist : PdfDoc × List String × ℚ) (ip : Nat × ItemLayout) =>
                  if ip.2.lines.isEmpty then ist
                  else
                    let doc := ist.1
                    let existing := ist.2.1
                    let cursorY := ist.2.2
                    let destinationY := cursorY + lineHeightPt
                    let doc := setPdfNamedDestination pdfNameOk encode doc
                      ip.2.item.destName pageIdx leftMarginPt destinationY
                    let existing := existing ++ [ip.2.item.destName]
                    let lineSt := ip.2.lines.foldl
                      (fun (lst : PdfDoc × ℚ) line =>
                        if lst.2 < footnoteMinY then lst
                        else
                          let cursorY := lst.2
                          let fr := line.foldl
                            (fun (fst : PdfDoc × ℚ) fragment =>
                              if fragment.text = "" then fst
                              else
                                let doc := appendContentOp fst.1 pageIdx
                                  (.text fragment.text fst.2 cursorY fontSizePt)
                                let doc :=
                                  match fragment.href with
                                  | some h =>
                                      if fragment.text.data.any (fun c => !jsIsSpace c) then
                                        match resolveFootnoteLinkSpec decode encode h existing with
                                        | some spec =>
                                            addPdfLinkAnnot pdfNameOk encode doc pageIdx
                                              (fst.2, cursorY - 6/5,
                                               fst.2 + fragment.width,
                                               cursorY + lineHeightPt - 1) spec
                                        | none => doc
                                      else doc
                                  | none => doc
                                (doc, fst.2 + fragment.width))
                            (lst.1, leftMarginPt)
                          (fr.1, cursorY - lineHeightPt))
                      (doc, cursorY)
                    let cursorY :=
                      if ip.1 < layout.1.length - 1 then lineSt.2 - itemGapPt
                      else lineSt.2
                    (lineSt.1, existing, cursorY))
                (doc, st.2, footnoteTopY - fontSizePt)
              (itemSt.1, itemSt.2.1))
      init
    final.1

/-- Screen-space named-destination coordinates reported by the overlay
render's geometry query (`xPt` / `yFromTopPt` are `none` when the
reported number is not finite). -/
structure OverlayDestCoord where
  destName : String
  pageNumber : Int
  xPt : Option ℚ
  yFromTopPt : Option ℚ
  deriving Repr, DecidableEq

/-- The merge half of `injectFootnotesOverlayIntoPdf` (lines 1310–1373):
the overlay render itself is external, so the overlay document arrives
as the per-page annotation arrays `overlayAnnots` (opaque annotation
ids) and the geometry-query results.  Every base page below
`min(totalPages, overlayPageCount)` gets the corresponding overlay page
drawn onto it; overlay annotations are re-parented and pushed; overlay
destinations with the `export-footnote-` prefix are registered once
each, with the y-coordinate flipped from top-left to bottom-left origin
and clamped to the page height. -/
def injectFootnotesOverlayMerge (pdfNameOk : String → Bool)
    (encode : String → String) (baseDoc : PdfDoc)
    (overlayAnnots : List (Option (List Nat)))
    (overlayDestinationCoordinates : List OverlayDestCoord)
    (finalFootnotePlans : List FinalPagePlan) : PdfDoc :=
  if finalFootnotePlans.isEmpty then baseDoc
  else
    let totalPages := baseDoc.pages.length
    if totalPages = 0 then baseDoc
    else
      let pagesToMerge := min totalPages overlayAnnots.length
      if pagesToMerge = 0 then baseDoc
      else
        let doc := (List.range pagesToMerge).foldl (fun doc pageIndex =>
          let doc := appendContentOp doc pageIndex (.overlay pageIndex)
          match overlayAnnots.get? pageIndex with
          | some (some annotIds) =>
              let doc := ensurePdfPageAnnotationsArray doc pageIndex
              annotIds.foldl
                (fun doc aid => pushPageAnnot doc pageIndex (.fromOverlay aid pageIndex))
                doc
          | _ => doc) baseDoc
        let doc := ensurePdfDestinationsDict doc
        (overlayDestinationCoordinates.foldl
          (fun (st : PdfDoc × List String) dest =>
            if ¬ jsStartsWith dest.destName "export-footnote-" then st
            else if st.2.contains dest.destName then st
            else
              let pageIndexZ := dest.pageNumber - 1
              if pageIndexZ < 0 ∨ (totalPages : Int) ≤ pageIndexZ then st
              else
                let pageIdx := pageIndexZ.toNat
                match st.1.pages.get? pageIdx with
                | none => st
                | some targetPage =>
                    let xPt := dest.xPt.getD 0
                    let yFromTopPt := dest.yFromTopPt.getD 0
                    let pageHeightPt := targetPage.height
                    let yPt := max 0 (min pageHeightPt (pageHeightPt - yFromTopPt))
                    let doc := setPdfNamedDestination pdfNameOk encode st.1
                      dest.destName pageIdx xPt yPt
                    (doc, st.2 ++ [dest.destName]))
          (doc, [])).1

/-! ## Theorems -/

/-- C10: `resolveFootnoteLinkSpec` is a total function (it cannot throw),
and a trimmed href that is not a hash reference, carries no URL scheme,
and is not root-relative resolves to no link spec at all, for every
choice of the URI-codec oracles and of the known destination set. -/
theorem resolveFootnoteLinkSpec_relative_is_none
    (decode : String → Option String) (encode : String → String)
    (href : String) (existing : List String)
    (hHash : jsStartsWith (jsTrim href) "#" = false)
    (hScheme : hasUrlScheme (jsTrim href) = false)
    (hRoot : jsStartsWith (jsTrim href) "/" = false) :
    resolveFootnoteLinkSpec decode encode href existing = none := by
  unfold resolveFootnoteLinkSpec
  by_cases hEmpty : jsTrim href = "" <;>
    simp [hEmpty, hHash, hScheme, hRoot]

/-- Witness for C10 at the relative href `"docs/page"`. -/
theorem resolveFootnoteLinkSpec_relative_witness :
    resolveFootnoteLinkSpec (fun _ => none) (fun s => s) "docs/page" [] = none :=
  resolveFootnoteLinkSpec_relative_is_none _ _ _ _
    (by decide) (by decide) (by decide)

/-- C3: the footer sizing step performs at most one margin expansion and
at most six recompute cycles; when the measured requirement exceeds the
reserved height by more than 0.25 mm, the reserved height becomes
`⌈measured + 1⌉` mm — at least the measured requirement — with exactly
one expansion and the six bounded cycles; otherwise nothing changes and
three cycles ran.  The bottom margin always equals the reserved footer
height plus the page-number band. -/
theorem footerSizingController_spec (initialAreaMm pageNumberBandMm : ℚ)
    (estimate : Nat → ℚ) :
    (footerSizingController initialAreaMm pageNumberBandMm estimate).expansions ≤ 1 ∧
    (footerSizingController initialAreaMm pageNumberBandMm estimate).recomputeCycles ≤ 6 ∧
    (footerSizingController initialAreaMm pageNumberBandMm estimate).bottomMarginMm =
      (footerSizingController initialAreaMm pageNumberBandMm estimate).footnoteAreaMm
        + pageNumberBandMm ∧
    (estimate 0 > initialAreaMm + 1 / 4 →
      (footerSizingController initialAreaMm pageNumberBandMm estimate).footnoteAreaMm =
        ((⌈estimate 0 + 1⌉ : ℤ) : ℚ) ∧
      estimate 0 ≤
        (footerSizingController initialAreaMm pageNumberBandMm estimate).footnoteAreaMm ∧
      (footerSizingController initialAreaMm pageNumberBandMm estimate).expansions = 1 ∧
      (footerSizingController initialAreaMm pageNumberBandMm estimate).recomputeCycles = 6) ∧
    (¬ estimate 0 > initialAreaMm + 1 / 4 →
      (footerSizingController initialAreaMm pageNumberBandMm estimate).footnoteAreaMm =
        initialAreaMm ∧
      (footerSizingController initialAreaMm pageNumberBandMm estimate).expansions = 0 ∧
      (footerSizingController initialAreaMm pageNumberBandMm estimate).recomputeCycles = 3) := by
  have hceil : estimate 0 ≤ ((⌈estimate 0 + 1⌉ : ℤ) : ℚ) :=
    calc estimate 0 ≤ estimate 0 + 1 := by linarith
      _ ≤ ((⌈estimate 0 + 1⌉ : ℤ) : ℚ) := Int.le_ceil _
  by_cases h : estimate 0 > initialAreaMm + 1 / 4
  · simp only [footerSizingController, if_pos h]
    exact ⟨by norm_num, by norm_num, by norm_num,
      fun _ => ⟨by norm_num, hceil, by norm_num, by norm_num⟩,
      fun hc => absurd h hc⟩
  · simp only [footerSizingController, if_neg h]
    exact ⟨by norm_num, by norm_num, by norm_num,
      fun hgt => absurd hgt h, fun _ => ⟨by norm_num, by norm_num, by norm_num⟩⟩

/-- Witness for C3 at the spec's example: 30 mm required while 25 mm is
reserved grows the reservation to 31 mm ≥ 30 mm with exactly one
expansion. -/
theorem footerSizingController_witness :
    (footerSizingController 25 6 (fun _ => 30)).footnoteAreaMm = 31 ∧
    (footerSizingController 25 6 (fun _ => 30)).expansions = 1 ∧
    (footerSizingController 25 6 (fun _ => 30)).recomputeCycles = 6 ∧
    (30 : ℚ) ≤ (footerSizingController 25 6 (fun _ => 30)).footnoteAreaMm := by
  have h := footerSizingController_spec 25 6 (fun _ => 30)
  have hgt : (fun _ => (30 : ℚ)) 0 > (25 : ℚ) + 1 / 4 := by norm_num
  refine ⟨?_, h.2.2.2.1 hgt |>.2.2.1, h.2.2.2.1 hgt |>.2.2.2, h.2.2.2.1 hgt |>.2.1⟩
  have := (h.2.2.2.1 hgt).1
  simpa using this.trans (by norm_num)

/-! ### Association list lemmas -/

theorem alistGet_set_self {α β : Type} [DecidableEq α]
    (l : List (α × β)) (k : α) (v : β) :
    alistGet (alistSet l k v) k = some v := by
  induction l with
  | nil => simp [alistGet, alistSet]
  | cons e rest ih =>
      by_cases h : e.1 = k
      · simp [alistSet, alistGet, h]
      · obtain ⟨k', v'⟩ := e
        simp only at h
        simp [alistSet, alistGet, h, List.find?] at ih ⊢
        simpa [alistGet] using ih

theorem alistGet_set_ne {α β : Type} [DecidableEq α]
    (l : List (α × β)) (k k' : α) (v : β) (h : k' ≠ k) :
    alistGet (alistSet l k v) k' = alistGet l k' := by
  induction l with
  | nil => simp [alistGet, alistSet, List.find?, Ne.symm h]
  | cons e rest ih =>
      obtain ⟨a, b⟩ := e
      by_cases ha : a = k
      · subst ha
        simp [alistSet, alistGet, List.find?, Ne.symm h]
      · by_cases ha' : a = k'
        · subst ha'
          simp [alistSet, alistGet, List.find?, ha]
        · simp only [alistSet, if_neg ha]
          simp [alistGet, List.find?, ha'] at ih ⊢
          exact ih

theorem alistSet_mem {α β : Type} [DecidableEq α]
    {k : α} {v : β} {e : α × β} :
    ∀ {l : List (α × β)}, e ∈ alistSet l k v → e ∈ l ∨ e = (k, v) := by
  intro l
  induction l with
  | nil => intro h; simpa [alistSet] using h
  | cons hd rest ih =>
      intro h
      obtain ⟨a, b⟩ := hd
      by_cases ha : a = k
      · simp only [alistSet, if_pos ha, List.mem_cons] at h
        rcases h with h | h
        · right; exact h
        · left; exact List.mem_cons_of_mem _ h
      · simp only [alistSet, if_neg ha, List.mem_cons] at h
        rcases h with h | h
        · left; simp [h]
        · rcases ih h with h2 | h2
          · left; exact List.mem_cons_of_mem _ h2
          · right; exact h2

/-! ### C4: the page-offset vote -/

/-- The delta contributed by one anchor, when it resolves in both
renders. -/
def anchorDelta (contentMp probeMp : Nat → Option Nat) (i : Nat) : Option Int :=
  match resolveMarkerPage contentMp i, resolveMarkerPage probeMp i with
  | some c, some p => some ((p : Int) - (c : Int))
  | _, _ => none

theorem offsetVotes_fold_getD (contentMp probeMp : Nat → Option Nat) (d : Int) :
    ∀ (indices : List Nat) (counts : List (Int × Nat)),
      (alistGet (indices.foldl
        (fun counts i =>
          match resolveMarkerPage contentMp i, resolveMarkerPage probeMp i with
          | some c, some p => tallyStep counts ((p : Int) - (c : Int))
          | _, _ => counts) counts) d).getD 0 =
      (alistGet counts d).getD 0 +
        (indices.filter (fun i => anchorDelta contentMp probeMp i = some d)).length := by
  intro indices
  induction indices with
  | nil => intro counts; simp
  | cons i rest ih =>
      intro counts
      simp only [List.foldl_cons, List.filter_cons]
      rcases hc : resolveMarkerPage contentMp i with _ | c <;>
        rcases hp : resolveMarkerPage probeMp i with _ | p
      · have hAd : anchorDelta contentMp probeMp i = none := by
          simp [anchorDelta, hc, hp]
        simp only [hc, hp, hAd]
        simpa using ih counts
      · have hAd : anchorDelta contentMp probeMp i = none := by
          simp [anchorDelta, hc, hp]
        simp only [hc, hp, hAd]
        simpa using ih counts
      · have hAd : anchorDelta contentMp probeMp i = none := by
          simp [anchorDelta, hc, hp]
        simp only [hc, hp, hAd]
        simpa using ih counts
      · have hAd : anchorDelta contentMp probeMp i = some ((p : Int) - (c : Int)) := by
          simp [anchorDelta, hc, hp]
        simp only [hc, hp, hAd]
        rw [ih (tallyStep counts ((p : Int) - (c : Int)))]
        by_cases hd : (p : Int) - (c : Int) = d
        · subst hd
          simp only [tallyStep, alistGet_set_self, Option.getD_some]
          simp
          omega
        · have hd2 : d ≠ (p : Int) - (c : Int) := fun hh => hd hh.symm
          simp only [tallyStep, alistGet_set_ne _ _ _ _ hd2]
          simp [hd]

theorem offsetVotes_counts_pos (contentMp probeMp : Nat → Option Nat) :
    ∀ (indices : List Nat) (counts : List (Int × Nat)),
      (∀ e ∈ counts, 1 ≤ e.2) →
      ∀ e ∈ indices.foldl
        (fun counts i =>
          match resolveMarkerPage contentMp i, resolveMarkerPage probeMp i with
          | some c, some p => tallyStep counts ((p : Int) - (c : Int))
          | _, _ => counts) counts, 1 ≤ e.2 := by
  intro indices
  induction indices with
  | nil => intro counts h; simpa using h
  | cons i rest ih =>
      intro counts h
      simp only [List.foldl_cons]
      rcases hc : resolveMarkerPage contentMp i with _ | c <;>
        rcases hp : resolveMarkerPage probeMp i with _ | p <;>
          simp only []
      · exact ih counts h
      · exact ih counts h
      · exact ih counts h
      · refine ih _ (fun e he => ?_)
        rcases alistSet_mem he with h' | h'
        · exact h e h'
        · subst h'; simp

/-- The fold underlying `selectOffset`, characterized: either no entry
strictly beats the seed and the seed survives, or the result is the
first entry whose count reaches the running maximum. -/
theorem selectOffset_fold_cases :
    ∀ (votes : List (Int × Nat)) (b : Int × Nat),
      (votes.foldl (fun (best : Int × Nat) e => if e.2 > best.2 then e else best) b = b ∧
        ∀ e ∈ votes, e.2 ≤ b.2) ∨
      (∃ e, e ∈ votes ∧
        votes.foldl (fun (best : Int × Nat) e => if e.2 > best.2 then e else best) b = e ∧
        b.2 < e.2 ∧ (∀ e' ∈ votes, e'.2 ≤ e.2) ∧
        votes.find? (fun e' => e.2 ≤ e'.2) = some e) := by
  intro votes
  induction votes with
  | nil => intro b; exact Or.inl ⟨rfl, by simp⟩
  | cons v rest ih =>
      intro b
      by_cases hv : v.2 > b.2
      · simp only [List.foldl_cons, if_pos hv]
        rcases ih v with ⟨hfold, hle⟩ | ⟨e, hmem, hfold, hlt, hmax, hfirst⟩
        · refine Or.inr ⟨v, List.mem_cons_self _ _, hfold, hv, ?_, ?_⟩
          · intro e' he'
            rcases List.mem_cons.mp he' with h | h
            · subst h; exact le_refl _
            · exact hle e' h
          · simp [List.find?]
        · refine Or.inr ⟨e, List.mem_cons_of_mem _ hmem, hfold, lt_trans hv hlt, ?_, ?_⟩
          · intro e' he'
            rcases List.mem_cons.mp he' with h | h
            · subst h; exact le_of_lt hlt
            · exact hmax e' h
          · have hdec : (decide (e.2 ≤ v.2)) = false := by
              simp [hlt.not_le]
            simp [List.find?, hdec, hfirst]
      · simp only [List.foldl_cons, if_neg hv]
        push_neg at hv
        rcases ih b with ⟨hfold, hle⟩ | ⟨e, hmem, hfold, hlt, hmax, hfirst⟩
        · refine Or.inl ⟨hfold, fun e he => ?_⟩
          rcases List.mem_cons.mp he with h | h
          · subst h; exact hv
          · exact hle e h
        · refine Or.inr ⟨e, List.mem_cons_of_mem _ hmem, hfold, hlt, ?_, ?_⟩
          · intro e' he'
            rcases List.mem_cons.mp he' with h | h
            · subst h; exact hv.trans (le_of_lt hlt)
            · exact hmax e' h
          · have hdec : (decide (e.2 ≤ v.2)) = false := by
              have hlt2 : v.2 < e.2 := lt_of_le_of_lt hv hlt
              simp [hlt2.not_le]
            simp [List.find?, hdec, hfirst]

/-- C4 (amended): the reconciler computes `delta = probePage − contentPage`
for every anchor resolved in both renders and tallies the deltas in a
frequency map; when the tally is empty (no anchor resolved in both) the
naive offset is selected; otherwise the selected offset is a delta with
the highest count, and a tie between deltas is won by the delta that was
first inserted into the tally (first seen in anchor order) — not by the
naive offset. -/
theorem pageOffset_vote_spec (indices : List Nat)
    (contentMp probeMp : Nat → Option Nat) (naive : Int) :
    ((∀ d : Int,
      ((alistGet (offsetVotes indices contentMp probeMp) d).getD 0) =
        (indices.filter (fun i => anchorDelta contentMp probeMp i = some d)).length) ∧
    (offsetVotes indices contentMp probeMp = [] →
      selectOffset (offsetVotes indices contentMp probeMp) naive = naive)) ∧
    (offsetVotes indices contentMp probeMp ≠ [] →
      ∃ e, e ∈ offsetVotes indices contentMp probeMp ∧
        selectOffset (offsetVotes indices contentMp probeMp) naive = e.1 ∧
        (∀ e' ∈ offsetVotes indices contentMp probeMp, e'.2 ≤ e.2) ∧
        (offsetVotes indices contentMp probeMp).find? (fun e' => e.2 ≤ e'.2) = some e) := by
  refine ⟨⟨fun d => ?_, fun h => ?_⟩, fun hne => ?_⟩
  · have := offsetVotes_fold_getD contentMp probeMp d indices []
    simpa [offsetVotes, alistGet] using this
  · rw [h]; rfl
  · have hpos : ∀ e ∈ offsetVotes indices contentMp probeMp, 1 ≤ e.2 :=
      offsetVotes_counts_pos contentMp probeMp indices [] (by simp)
    rcases selectOffset_fold_cases (offsetVotes indices contentMp probeMp) (naive, 0)
      with ⟨hfold, hle⟩ | ⟨e, hmem, hfold, _, hmax, hfirst⟩
    · obtain ⟨v, hv⟩ := List.exists_mem_of_ne_nil _ hne
      have h1 := hpos v hv
      have h2 := hle v hv
      omega
    · exact ⟨e, hmem, by simpa [selectOffset] using congrArg Prod.fst hfold,
        hmax, hfirst⟩

/-- C4 counterexample: with anchor deltas `{+2: 2, +3: 2}` (a tie for the
highest count) and naive offset `7`, the code selects `+2` — the
first-seen delta — not the naive offset, contradicting the claimed tie
break. -/
theorem selectOffset_tie_counterexample :
    offsetVotes [0, 1, 2, 3] (fun i => some (i + 1))
      (fun i => if i < 2 then some (i + 3) else some (i + 4)) = [(2, 2), (3, 2)] ∧
    selectOffset [(2, 2), (3, 2)] 7 = 2 ∧ (2 : Int) ≠ 7 := by
  refine ⟨by decide, by decide, by decide⟩

/-- Witness for C4 at a concrete tally. -/
theorem pageOffset_vote_witness :
    ∃ e, e ∈ offsetVotes [0, 1] (fun i => some (i + 1)) (fun i => some (i + 3)) ∧
      selectOffset (offsetVotes [0, 1] (fun i => some (i + 1)) (fun i => some (i + 3))) 5 = e.1 ∧
      (∀ e' ∈ offsetVotes [0, 1] (fun i => some (i + 1)) (fun i => some (i + 3)), e'.2 ≤ e.2) ∧
      (offsetVotes [0, 1] (fun i => some (i + 1)) (fun i => some (i + 3))).find?
        (fun e' => e.2 ≤ e'.2) = some e :=
  (pageOffset_vote_spec [0, 1] (fun i => some (i + 1)) (fun i => some (i + 3)) 5).2
    (by decide)

/-! ### C8: destination-name sanitization -/

theorem digitChar_safe {m : Nat} (h : m < 10) :
    isSafeTokenChar (Nat.digitChar m) = true := by
  interval_cases m <;> decide

theorem toDigitsCore_safe :
    ∀ (f n : Nat) (acc : List Char), (∀ c ∈ acc, isSafeTokenChar c = true) →
      ∀ c ∈ Nat.toDigitsCore 10 f n acc, isSafeTokenChar c = true := by
  intro f
  induction f with
  | zero =>
      intro n acc hacc c hc
      exact hacc c (by simpa [Nat.toDigitsCore] using hc)
  | succ f ih =>
      intro n acc hacc c hc
      have hd : isSafeTokenChar (Nat.digitChar (n % 10)) = true :=
        digitChar_safe (Nat.mod_lt _ (by norm_num))
      simp only [Nat.toDigitsCore] at hc
      by_cases hz : n / 10 = 0
      · rw [if_pos hz] at hc
        rcases List.mem_cons.mp hc with h | h
        · subst h; exact hd
        · exact hacc c h
      · rw [if_neg hz] at hc
        refine ih (n / 10) _ (fun c' hc' => ?_) c hc
        rcases List.mem_cons.mp hc' with h | h
        · subst h; exact hd
        · exact hacc c' h

theorem natRepr_chars_safe (n : Nat) :
    ∀ c ∈ (Nat.repr n).data, isSafeTokenChar c = true := by
  intro c hc
  have hdata : (Nat.repr n).data = Nat.toDigitsCore 10 (n + 1) n [] := rfl
  rw [hdata] at hc
  exact toDigitsCore_safe (n + 1) n [] (by simp) c hc

theorem collapseUnsafeRuns_fold_safe :
    ∀ (l : List Char) (acc : List Char × Bool),
      (∀ c ∈ acc.1, isSafeTokenChar c = true) →
      ∀ c ∈ (l.foldl collapseUnsafeStep acc).1, isSafeTokenChar c = true := by
  intro l
  induction l with
  | nil => intro acc h; simpa using h
  | cons x xs ih =>
      intro acc h
      simp only [List.foldl_cons]
      refine ih _ (fun c hc => ?_)
      unfold collapseUnsafeStep at hc
      by_cases hx : isSafeTokenChar x
      · rw [if_pos hx] at hc
        rcases (by simpa using hc : c ∈ acc.1 ∨ c = x) with hm | hm
        · exact h c hm
        · rw [hm]; exact hx
      · rw [if_neg hx] at hc
        by_cases hb : acc.2
        · rw [if_pos hb] at hc
          exact h c hc
        · rw [if_neg hb] at hc
          rcases (by simpa using hc : c ∈ acc.1 ∨ c = '-') with hm | hm
          · exact h c hm
          · rw [hm]; decide

theorem stripOuterDashes_subset {c : Char} {l : List Char}
    (h : c ∈ stripOuterDashes l) : c ∈ l := by
  unfold stripOuterDashes at h
  rw [List.mem_reverse] at h
  have h1 := List.dropWhile_subset (l := (l.dropWhile (· = '-')).reverse) (p := (· = '-')) h
  rw [List.mem_reverse] at h1
  exact List.dropWhile_subset _ h1

/-- Case analysis of `sanitizeFootnoteToken`: the result is either the
fallback verbatim, or a non-empty string of at most 48 characters all
drawn from `[a-z0-9_-]`. -/
theorem sanitizeFootnoteToken_cases (v fb : String) :
    sanitizeFootnoteToken v fb = fb ∨
      ((sanitizeFootnoteToken v fb).length ≤ 48 ∧
        sanitizeFootnoteToken v fb ≠ "" ∧
        ∀ c ∈ (sanitizeFootnoteToken v fb).data, isSafeTokenChar c = true) := by
  unfold sanitizeFootnoteToken
  set safe : List Char :=
    (stripOuterDashes (collapseUnsafeRuns ((jsTrim v).data.map Char.toLower))).take 48 with hsafe
  by_cases h : safe.isEmpty
  · left; simp [h]
  · right
    rw [if_neg h]
    refine ⟨?_, ?_, ?_⟩
    · show safe.length ≤ 48
      rw [hsafe, List.length_take]
      exact min_le_left _ _
    · intro hcontra
      have : safe = [] := congrArg String.data hcontra
      rw [List.isEmpty_iff] at h
      exact h this
    · intro c hc
      have hc1 : c ∈ stripOuterDashes (collapseUnsafeRuns ((jsTrim v).data.map Char.toLower)) :=
        List.take_subset _ _ (by simpa [hsafe] using hc)
      exact collapseUnsafeRuns_fold_safe _ ([], false) (by simp) c (stripOuterDashes_subset hc1)

/-- Every character of the `fn-N` fallback is in the safe set. -/
theorem fnFallback_chars_safe (n : Nat) :
    ∀ c ∈ ("fn-" ++ toString n).data, isSafeTokenChar c = true := by
  intro c hc
  rw [String.data_append] at hc
  rcases List.mem_append.mp hc with h | h
  · fin_cases h <;> decide
  · exact natRepr_chars_safe n c h

theorem listModify_mem {α : Type} {l : List α} {i : Nat} {f : α → α} {x : α}
    (h : x ∈ listModify l i f) : x ∈ l ∨ ∃ y ∈ l, x = f y := by
  unfold listModify at h
  rcases hg : l.get? i with _ | y
  · rw [hg] at h; exact Or.inl h
  · rw [hg] at h
    rcases List.mem_or_eq_of_mem_set h with h' | h'
    · exact Or.inl h'
    · exact Or.inr ⟨y, List.get?_mem hg, h'⟩

/-- The destination names ever allocated by the plan builder have the
shape `export-footnote-<counter>-<sanitized token>`. -/
def DestNameShaped (dn : String) : Prop :=
  ∃ (k n : Nat) (tid : String),
    dn = "export-footnote-" ++ toString k ++ "-" ++
      sanitizeFootnoteToken tid ("fn-" ++ toString n)

/-- Facts maintained for every item in the running plan state: the
destination-name shape, and that the stored segments are exactly the
effective (cloned or placeholder) body of the item's own target id. -/
def PlanItemFact (defs : String → Option (List Segment)) (it : PlanItem) : Prop :=
  DestNameShaped it.destName ∧
  it.segments = effectiveFootnoteSegments defs it.targetId

def StateItemsFact (defs : String → Option (List Segment)) (s : PlanState) : Prop :=
  ∀ p e, alistGet s.pages p = some e → ∀ it ∈ e.items, PlanItemFact defs it

theorem finishPlanStep_itemsFact {defs : String → Option (List Segment)}
    {s : PlanState} {page : Nat} {entry : PageEntry} {idx an : Nat}
    {ref : FootnoteRef} {gk : Option String} {nc : Nat}
    (hentry : ∀ it ∈ entry.items, PlanItemFact defs it)
    (h : StateItemsFact defs s) :
    StateItemsFact defs (finishPlanStep s page entry idx an ref gk nc) := by
  intro p' e' hget it hit
  unfold finishPlanStep at hget
  simp only at hget
  by_cases hp : p' = page
  · subst hp
    rw [alistGet_set_self] at hget
    cases hget
    simp only at hit
    rcases listModify_mem hit with hmem | ⟨y, hy, heq⟩
    · exact hentry it hmem
    · subst heq
      exact ⟨(hentry y hy).1, (hentry y hy).2⟩
  · rw [alistGet_set_ne _ _ _ _ hp] at hget
    exact h p' e' hget it hit

theorem planStep_itemsFact (mp : Nat → Option Nat)
    (defs : String → Option (List Segment)) (s : PlanState) (r : FootnoteRef)
    (h : StateItemsFact defs s) : StateItemsFact defs (planStep mp defs s r) := by
  unfold planStep
  rcases hres : resolveMarkerPage mp r.refIndex with _ | page
  · exact h
  · simp only
    have hbase : ∀ it ∈ ((alistGet s.pages page).getD (emptyPageEntry page)).items,
        PlanItemFact defs it := by
      rcases hb : alistGet s.pages page with _ | e0
      · simp [emptyPageEntry]
      · simpa using h page e0 hb
    rcases planMergeCandidate
        { (alistGet s.pages page).getD (emptyPageEntry page) with
          nextNumber := ((alistGet s.pages page).getD (emptyPageEntry page)).nextNumber + 1 }
        ((alistGet s.pages page).getD (emptyPageEntry page)).nextNumber
        r.targetId (definitionGroupKeyOf defs r.targetId) with _ | idx
    · refine finishPlanStep_itemsFact ?_ h
      intro it hit
      rcases List.mem_append.mp hit with hm | hm
      · exact hbase it hm
      · rw [List.mem_singleton.mp hm]
        refine ⟨⟨s.destinationCounter + 1,
          ((alistGet s.pages page).getD (emptyPageEntry page)).nextNumber,
          r.targetId, rfl⟩, rfl⟩
    · refine finishPlanStep_itemsFact ?_ h
      intro it hit
      rcases listModify_mem hit with hm | ⟨y, hy, heq⟩
      · exact hbase it hm
      · subst heq
        have hf := hbase y hy
        unfold addRefTargetId
        by_cases hcont : y.targetIds.contains r.targetId
        · rw [if_pos hcont]; exact hf
        · rw [if_neg hcont]; exact ⟨hf.1, hf.2⟩

theorem buildPlan_fold_itemsFact (mp : Nat → Option Nat)
    (defs : String → Option (List Segment)) :
    ∀ (refs : List FootnoteRef) (s : PlanState), StateItemsFact defs s →
      StateItemsFact defs (refs.foldl (planStep mp defs) s) := by
  intro refs
  induction refs with
  | nil => intro s h; exact h
  | cons r rest ih =>
      intro s h
      exact ih _ (planStep_itemsFact mp defs s r h)

/-- Membership in the sorted key list is membership in the key list. -/
theorem mem_sortKeysAsc {x : Nat} : ∀ {l : List Nat}, x ∈ sortKeysAsc l → x ∈ l := by
  have hins : ∀ (y : Nat) (m : List Nat), x ∈ insertSorted y m → x = y ∨ x ∈ m := by
    intro y m
    induction m with
    | nil => intro h; simpa [insertSorted] using h
    | cons z zs ih =>
        intro h
        unfold insertSorted at h
        by_cases hle : y ≤ z
        · rw [if_pos hle] at h
          rcases List.mem_cons.mp h with h' | h'
          · exact Or.inl h'
          · exact Or.inr h'
        · rw [if_neg hle] at h
          rcases List.mem_cons.mp h with h' | h'
          · exact Or.inr (h' ▸ List.mem_cons_self _ _)
          · rcases ih h' with h2 | h2
            · exact Or.inl h2
            · exact Or.inr (List.mem_cons_of_mem _ h2)
  intro l
  induction l with
  | nil => intro h; simp [sortKeysAsc] at h
  | cons y ys ih =>
      intro h
      unfold sortKeysAsc at h
      rw [List.foldr_cons] at h
      rcases hins y _ h with h' | h'
      · exact h' ▸ List.mem_cons_self _ _
      · exact List.mem_cons_of_mem _ (ih h')

/-- Every item of every page of a built plan satisfies both stored-item
facts (with the segments re-cloned by the export copy). -/
theorem buildFootnotePagePlan_items_fact (refs : List FootnoteRef)
    (mp : Nat → Option Nat) (defs : String → Option (List Segment)) :
    ∀ P ∈ (buildFootnotePagePlan refs mp defs).pages, ∀ it ∈ P.items,
      DestNameShaped it.destName ∧
      it.segments = cloneFootnoteSegments (effectiveFootnoteSegments defs it.targetId) := by
  intro P hP it hit
  have hfact : StateItemsFact defs (refs.foldl (planStep mp defs) ⟨[], [], [], 0⟩) :=
    buildPlan_fold_itemsFact mp defs refs _ (by intro p e hget; simp [alistGet] at hget)
  simp only [buildFootnotePagePlan] at hP
  rcases List.mem_filterMap.mp hP with ⟨p, _hp, hPeq⟩
  rcases hpe : alistGet (refs.foldl (planStep mp defs) ⟨[], [], [], 0⟩).pages p
    with _ | e
  · rw [hpe] at hPeq; cases hPeq
  · rw [hpe] at hPeq
    have hPeq2 : PagePlanOut.mk p (e.items.map exportPlanItem) = P :=
      Option.some.inj hPeq
    subst hPeq2
    rcases List.mem_map.mp hit with ⟨it0, hit0, hexp⟩
    have hf := hfact p e hpe it0 hit0
    subst hexp
    exact ⟨hf.1, by rw [exportPlanItem, hf.2]⟩

/-- C8 (amended): every destination name the plan builder creates is
non-empty and consists only of `[a-z0-9_-]` characters; it has the shape
`export-footnote-<counter>-<token>` where the sanitized token either is
the numeric fallback `fn-N` or is capped at 48 characters — but the full
name may exceed 48 characters. -/
theorem destName_spec (refs : List FootnoteRef) (mp : Nat → Option Nat)
    (defs : String → Option (List Segment)) :
    ∀ P ∈ (buildFootnotePagePlan refs mp defs).pages, ∀ it ∈ P.items,
      it.destName ≠ "" ∧
      (∀ c ∈ it.destName.data, isSafeTokenChar c = true) ∧
      ∃ (k n : Nat) (tid : String),
        it.destName = "export-footnote-" ++ toString k ++ "-" ++
          sanitizeFootnoteToken tid ("fn-" ++ toString n) ∧
        (sanitizeFootnoteToken tid ("fn-" ++ toString n) = "fn-" ++ toString n ∨
          (sanitizeFootnoteToken tid ("fn-" ++ toString n)).length ≤ 48) := by
  intro P hP it hit
  obtain ⟨⟨k, n, tid, hdn⟩, -⟩ :=
    buildFootnotePagePlan_items_fact refs mp defs P hP it hit
  have hpre : ∀ c ∈ ("export-footnote-" : String).data, isSafeTokenChar c = true := by
    decide
  refine ⟨?_, ?_, k, n, tid, hdn, ?_⟩
  · rw [hdn]
    intro hcontra
    have hdata := congrArg String.data hcontra
    rw [String.data_append, String.data_append, String.data_append] at hdata
    simp at hdata
  · rw [hdn]
    intro c hc
    rw [String.data_append, String.data_append, String.data_append] at hc
    rcases List.mem_append.mp hc with hc1 | hc1
    · rcases List.mem_append.mp hc1 with hc2 | hc2
      · rcases List.mem_append.mp hc2 with hc3 | hc3
        · exact hpre c hc3
        · exact natRepr_chars_safe k c hc3
      · have : c = '-' := by simpa using hc2
        rw [this]; decide
    · rcases sanitizeFootnoteToken_cases tid ("fn-" ++ toString n) with hca | hca
      · rw [hca] at hc1
        exact fnFallback_chars_safe n c hc1
      · exact hca.2.2 c hc1
  · rcases sanitizeFootnoteToken_cases tid ("fn-" ++ toString n) with hca | hca
    · exact Or.inl hca
    · exact Or.inr hca.1

/-- C8 counterexample: a 60-character target id yields a destination
name of 66 characters — more than the 48 the claim allows — even though
the sanitized token itself is capped at 48. -/
theorem destName_length_counterexample :
    ((buildFootnotePagePlan [⟨0, String.mk (List.replicate 60 'a')⟩]
      (fun _ => some 1) (fun _ => none)).pages.map
        (fun P => P.items.map (fun i => i.destName.length))) = [[66]] ∧
    ¬ (66 ≤ 48) := ⟨by decide, by decide⟩

/-- Witness for C8 (amended) at a concrete reference. -/
theorem destName_spec_witness :
    ("export-footnote-1-ref-a" : String) ≠ "" ∧
    (∀ c ∈ ("export-footnote-1-ref-a" : String).data, isSafeTokenChar c = true) ∧
    ∃ (k n : Nat) (tid : String),
      ("export-footnote-1-ref-a" : String) = "export-footnote-" ++ toString k ++ "-" ++
        sanitizeFootnoteToken tid ("fn-" ++ toString n) ∧
      (sanitizeFootnoteToken tid ("fn-" ++ toString n) = "fn-" ++ toString n ∨
        (sanitizeFootnoteToken tid ("fn-" ++ toString n)).length ≤ 48) := by
  have h := destName_spec [⟨0, "Ref A"⟩] (fun _ => some 1) (fun _ => none)
    ⟨1, [⟨"Ref A", ["Ref A"], 1, "1", [1], "export-footnote-1-ref-a",
      [⟨"(footnote text unavailable)", none⟩]⟩]⟩ (by decide)
    ⟨"Ref A", ["Ref A"], 1, "1", [1], "export-footnote-1-ref-a",
      [⟨"(footnote text unavailable)", none⟩]⟩ (by decide)
  exact h

/-! ### C9: error handling of the plan builder -/

theorem planStep_unresolved (mp : Nat → Option Nat)
    (defs : String → Option (List Segment)) (s : PlanState) (r : FootnoteRef) :
    (planStep mp defs s r).unresolvedRefs = s.unresolvedRefs ++
      (if resolveMarkerPage mp r.refIndex = none then [r.refIndex] else []) := by
  unfold planStep
  rcases hres : resolveMarkerPage mp r.refIndex with _ | page
  · simp
  · simp only
    rcases planMergeCandidate
        { (alistGet s.pages page).getD (emptyPageEntry page) with
          nextNumber := ((alistGet s.pages page).getD (emptyPageEntry page)).nextNumber + 1 }
        ((alistGet s.pages page).getD (emptyPageEntry page)).nextNumber
        r.targetId (definitionGroupKeyOf defs r.targetId) with _ | idx <;>
      simp [finishPlanStep]

theorem planStep_refUpdates (mp : Nat → Option Nat)
    (defs : String → Option (List Segment)) (s : PlanState) (r : FootnoteRef) :
    (planStep mp defs s r).refUpdates.map (·.refIndex) =
      s.refUpdates.map (·.refIndex) ++
      (if (resolveMarkerPage mp r.refIndex).isSome then [r.refIndex] else []) := by
  unfold planStep
  rcases hres : resolveMarkerPage mp r.refIndex with _ | page
  · simp
  · simp only
    rcases planMergeCandidate
        { (alistGet s.pages page).getD (emptyPageEntry page) with
          nextNumber := ((alistGet s.pages page).getD (emptyPageEntry page)).nextNumber + 1 }
        ((alistGet s.pages page).getD (emptyPageEntry page)).nextNumber
        r.targetId (definitionGroupKeyOf defs r.targetId) with _ | idx <;>
      simp [finishPlanStep]

theorem buildPlan_fold_unresolved (mp : Nat → Option Nat)
    (defs : String → Option (List Segment)) :
    ∀ (refs : List FootnoteRef) (s : PlanState),
      (refs.foldl (planStep mp defs) s).unresolvedRefs = s.unresolvedRefs ++
        (refs.filter (fun r => resolveMarkerPage mp r.refIndex = none)).map (·.refIndex) := by
  intro refs
  induction refs with
  | nil => intro s; simp
  | cons r rest ih =>
      intro s
      rw [List.foldl_cons, ih, planStep_unresolved, List.filter_cons]
      by_cases hres : resolveMarkerPage mp r.refIndex = none <;>
        simp [hres]

theorem buildPlan_fold_refUpdates (mp : Nat → Option Nat)
    (defs : String → Option (List Segment)) :
    ∀ (refs : List FootnoteRef) (s : PlanState),
      (refs.foldl (planStep mp defs) s).refUpdates.map (·.refIndex) =
        s.refUpdates.map (·.refIndex) ++
        (refs.filter (fun r => (resolveMarkerPage mp r.refIndex).isSome)).map (·.refIndex) := by
  intro refs
  induction refs with
  | nil => intro s; simp
  | cons r rest ih =>
      intro s
      rw [List.foldl_cons, ih, planStep_refUpdates, List.filter_cons]
      by_cases hres : (resolveMarkerPage mp r.refIndex).isSome <;>
        simp [hres]

/-- C9: `buildFootnotePagePlan` is a total function (it cannot throw);
a reference whose `refIndex` is absent from the marker-page map (or maps
to the falsy page 0) is appended to `unresolvedRefs` in order and gets no
reference rewrite — `refUpdates` lists exactly the resolved references,
in order — and a reference whose target id has no (non-empty) definition
still produces an item whose body is the visible placeholder segment. -/
theorem buildFootnotePagePlan_error_handling (refs : List FootnoteRef)
    (mp : Nat → Option Nat) (defs : String → Option (List Segment)) :
    (buildFootnotePagePlan refs mp defs).unresolvedRefs =
      (refs.filter (fun r => resolveMarkerPage mp r.refIndex = none)).map (·.refIndex) ∧
    (buildFootnotePagePlan refs mp defs).refUpdates.map (·.refIndex) =
      (refs.filter (fun r => (resolveMarkerPage mp r.refIndex).isSome)).map (·.refIndex) ∧
    ∀ P ∈ (buildFootnotePagePlan refs mp defs).pages, ∀ it ∈ P.items,
      hasFootnoteDefinition defs it.targetId = false →
      it.segments = [⟨"(footnote text unavailable)", none⟩] := by
  refine ⟨?_, ?_, ?_⟩
  · show (refs.foldl (planStep mp defs) ⟨[], [], [], 0⟩).unresolvedRefs = _
    rw [buildPlan_fold_unresolved]
    simp
  · show ((refs.foldl (planStep mp defs) ⟨[], [], [], 0⟩).refUpdates).map (·.refIndex) = _
    rw [buildPlan_fold_refUpdates]
    simp
  · intro P hP it hit hno
    obtain ⟨-, hseg⟩ := buildFootnotePagePlan_items_fact refs mp defs P hP it hit
    have heff : effectiveFootnoteSegments defs it.targetId =
        [⟨"(footnote text unavailable)", none⟩] := by
      unfold effectiveFootnoteSegments
      unfold hasFootnoteDefinition at hno
      rcases hd : defs it.targetId with _ | l
      · rfl
      · rw [hd] at hno
        cases l with
        | nil => rfl
        | cons a l' => simp at hno
    rw [hseg, heff]
    decide

/-- Witness for C9: one resolved and one unresolved reference, with no
definitions at all. -/
theorem buildFootnotePagePlan_error_handling_witness :
    (buildFootnotePagePlan [⟨0, "a"⟩, ⟨1, "b"⟩]
      (fun i => if i = 0 then some 1 else none) (fun _ => none)).unresolvedRefs = [1] ∧
    (buildFootnotePagePlan [⟨0, "a"⟩, ⟨1, "b"⟩]
      (fun i => if i = 0 then some 1 else none) (fun _ => none)).refUpdates.map
        (·.refIndex) = [0] ∧
    (⟨"a", ["a"], 1, "1", [1], "export-footnote-1-a",
      [⟨"(footnote text unavailable)", none⟩]⟩ : PlanOutItem).segments =
      [⟨"(footnote text unavailable)", none⟩] := by
  have h := buildFootnotePagePlan_error_handling [⟨0, "a"⟩, ⟨1, "b"⟩]
    (fun i => if i = 0 then some 1 else none) (fun _ => none)
  refine ⟨?_, ?_, ?_⟩
  · rw [h.1]; decide
  · rw [h.2.1]; decide
  · exact h.2.2 ⟨1, [⟨"a", ["a"], 1, "1", [1], "export-footnote-1-a",
      [⟨"(footnote text unavailable)", none⟩]⟩]⟩ (by decide)
      ⟨"a", ["a"], 1, "1", [1], "export-footnote-1-a",
        [⟨"(footnote text unavailable)", none⟩]⟩ (by decide) (by decide)

/-! ### C2: merging of consecutive references -/

/-- C2: two consecutive references on the same page merge into a single
item whose `numbers` list is `[1, 2]` and whose content appears exactly
once, both when they share the target id and when they point at
different targets whose definitions carry the same content key (the
`byDefinitionKey` path; the merged item then records both target ids);
the same two same-target references separated by a different footnote
(different target id, no shared definition content key) produce three
separate items numbered `[1]`, `[2]`, `[3]` — the later reference
allocates a new item instead of merging, since the intervening footnote
broke number contiguity. -/
theorem buildFootnotePagePlan_merge_spec (t u : String) (p : Nat)
    (defs : String → Option (List Segment)) (hp : p ≠ 0) (htu : t ≠ u) :
    ((buildFootnotePagePlan [⟨0, t⟩, ⟨1, t⟩] (fun _ => some p) defs).pages.map
      (fun P => (P.page, P.items.map (·.numbers)))) = [(p, [[1, 2]])] ∧
    ((buildFootnotePagePlan [⟨0, t⟩, ⟨1, t⟩] (fun _ => some p) defs).pages.map
      (fun P => P.items.map (·.segments))) =
      [[cloneFootnoteSegments (effectiveFootnoteSegments defs t)]] ∧
    ((∀ k, definitionGroupKeyOf defs t = some k →
        definitionGroupKeyOf defs u ≠ some k) →
      ((buildFootnotePagePlan [⟨0, t⟩, ⟨1, u⟩, ⟨2, t⟩] (fun _ => some p) defs).pages.map
        (fun P => (P.page, P.items.map (·.numbers)))) = [(p, [[1], [2], [3]])]) ∧
    (∀ g, definitionGroupKeyOf defs t = some g →
      definitionGroupKeyOf defs u = some g →
      ((buildFootnotePagePlan [⟨0, t⟩, ⟨1, u⟩] (fun _ => some p) defs).pages.map
        (fun P => (P.page, P.items.map (·.numbers)))) = [(p, [[1, 2]])] ∧
      ((buildFootnotePagePlan [⟨0, t⟩, ⟨1, u⟩] (fun _ => some p) defs).pages.map
        (fun P => P.items.map (·.targetIds))) = [[[t, u]]] ∧
      ((buildFootnotePagePlan [⟨0, t⟩, ⟨1, u⟩] (fun _ => some p) defs).pages.map
        (fun P => P.items.map (·.segments))) =
        [[cloneFootnoteSegments (effectiveFootnoteSegments defs t)]]) := by
  have hres : ∀ i, resolveMarkerPage (fun _ => some p) i = some p := by
    intro i; simp [resolveMarkerPage, hp]
  have hut : u ≠ t := Ne.symm htu
  refine ⟨?_, ?_, ?_, ?_⟩
  · rcases hkt : definitionGroupKeyOf defs t with _ | g <;>
      simp [buildFootnotePagePlan, planStep, hres, alistGet, alistSet, emptyPageEntry,
        planMergeCandidate, itemIsContiguous, finishPlanStep, pushAssignedNumber,
        addRefTargetId, listModify, exportPlanItem, sortKeysAsc, insertSorted, hkt,
        List.find?]
  · rcases hkt : definitionGroupKeyOf defs t with _ | g <;>
      simp [buildFootnotePagePlan, planStep, hres, alistGet, alistSet, emptyPageEntry,
        planMergeCandidate, itemIsContiguous, finishPlanStep, pushAssignedNumber,
        addRefTargetId, listModify, exportPlanItem, sortKeysAsc, insertSorted, hkt,
        List.find?]
  · intro hkey
    rcases hkt : definitionGroupKeyOf defs t with _ | g <;>
      rcases hku : definitionGroupKeyOf defs u with _ | g2 <;>
      first
      | (have hne : g2 ≠ g := fun hh => hkey g hkt (hh ▸ hku)
         have hne2 : g ≠ g2 := Ne.symm hne
         simp [buildFootnotePagePlan, planStep, hres, alistGet, alistSet, emptyPageEntry,
          planMergeCandidate, itemIsContiguous, finishPlanStep, pushAssignedNumber,
          addRefTargetId, listModify, exportPlanItem, sortKeysAsc, insertSorted, hkt, hku,
          htu, hut, hne, hne2, List.find?])
      | simp [buildFootnotePagePlan, planStep, hres, alistGet, alistSet, emptyPageEntry,
          planMergeCandidate, itemIsContiguous, finishPlanStep, pushAssignedNumber,
          addRefTargetId, listModify, exportPlanItem, sortKeysAsc, insertSorted, hkt, hku,
          htu, hut, List.find?]
  · intro g hga hgb
    refine ⟨?_, ?_, ?_⟩ <;>
      simp [buildFootnotePagePlan, planStep, hres, alistGet, alistSet, emptyPageEntry,
        planMergeCandidate, itemIsContiguous, finishPlanStep, pushAssignedNumber,
        addRefTargetId, listModify, exportPlanItem, sortKeysAsc, insertSorted, hga, hgb,
        htu, hut, List.find?]

/-- Witness for C2 at concrete target ids: the same-target merge and the
intervening-footnote split with no definitions, and the
definition-content merge for targets `"a"` and `"b"` sharing the
definition body `[⟨"x", none⟩]`. -/
theorem buildFootnotePagePlan_merge_witness :
    ((buildFootnotePagePlan [⟨0, "a"⟩, ⟨1, "a"⟩] (fun _ => some 1)
      (fun _ => none)).pages.map
        (fun P => (P.page, P.items.map (·.numbers)))) = [(1, [[1, 2]])] ∧
    ((buildFootnotePagePlan [⟨0, "a"⟩, ⟨1, "b"⟩, ⟨2, "a"⟩] (fun _ => some 1)
      (fun _ => none)).pages.map
        (fun P => (P.page, P.items.map (·.numbers)))) = [(1, [[1], [2], [3]])] ∧
    ((buildFootnotePagePlan [⟨0, "a"⟩, ⟨1, "b"⟩] (fun _ => some 1)
      (fun tid => if tid = "a" then some [⟨"x", none⟩]
        else if tid = "b" then some [⟨"x", none⟩] else none)).pages.map
        (fun P => (P.page, P.items.map (·.numbers)))) = [(1, [[1, 2]])] ∧
    ((buildFootnotePagePlan [⟨0, "a"⟩, ⟨1, "b"⟩] (fun _ => some 1)
      (fun tid => if tid = "a" then some [⟨"x", none⟩]
        else if tid = "b" then some [⟨"x", none⟩] else none)).pages.map
        (fun P => P.items.map (·.targetIds))) = [[["a", "b"]]] := by
  have h := buildFootnotePagePlan_merge_spec "a" "b" 1 (fun _ => none)
    (by decide) (by decide)
  have h2 := (buildFootnotePagePlan_merge_spec "a" "b" 1
    (fun tid => if tid = "a" then some [⟨"x", none⟩]
      else if tid = "b" then some [⟨"x", none⟩] else none)
    (by decide) (by decide)).2.2.2 _ rfl (by decide)
  exact ⟨h.1,
    h.2.2.1 (fun k hk => by simp [definitionGroupKeyOf, hasFootnoteDefinition] at hk),
    h2.1, h2.2.1⟩

/-! ### C1: per-page numbering -/

/-- Concatenation of the `numbers` lists of the items, in item order. -/
def itemsNumbers (items : List PlanItem) : List Nat :=
  (items.map (·.numbers)).flatten

theorem itemsNumbers_append (l1 l2 : List PlanItem) :
    itemsNumbers (l1 ++ l2) = itemsNumbers l1 ++ itemsNumbers l2 := by
  simp [itemsNumbers]

theorem itemsNumbers_cons (x : PlanItem) (l : List PlanItem) :
    itemsNumbers (x :: l) = x.numbers ++ itemsNumbers l := by
  simp [itemsNumbers]

theorem addRefTargetId_numbers (tid : String) (it : PlanItem) :
    (addRefTargetId tid it).numbers = it.numbers := by
  unfold addRefTargetId; split <;> rfl

theorem addRefTargetId_last (tid : String) (it : PlanItem) :
    (addRefTargetId tid it).lastAssignedNumber = it.lastAssignedNumber := by
  unfold addRefTargetId; split <;> rfl

theorem listModify_eq_of_get? {α : Type} {l : List α} {i : Nat} {x : α}
    (f : α → α) (h : l.get? i = some x) :
    listModify l i f = l.take i ++ f x :: l.drop (i + 1) := by
  have hlt : i < l.length := by
    rcases List.get?_eq_some.mp h with ⟨h2, _⟩
    exact h2
  unfold listModify
  simp only [h, List.set_eq_take_append_cons_drop, if_pos hlt]

/-- If an item has last assigned number `n` and the flattened numbers of
the item list are exactly `1..n`, that item is the final item. -/
theorem contiguous_is_last {items : List PlanItem} {n idx : Nat} {it : PlanItem}
    (hflat : itemsNumbers items = List.range' 1 n)
    (hok : ∀ it' ∈ items, it'.numbers ≠ [] ∧
      it'.lastAssignedNumber = it'.numbers.getLast?)
    (hidx : items.get? idx = some it) (hlast : it.lastAssignedNumber = some n) :
    idx + 1 = items.length := by
  have hlt : idx < items.length := by
    rcases List.get?_eq_some.mp hidx with ⟨h2, _⟩
    exact h2
  by_contra hne
  have hlt2 : idx + 1 < items.length := by omega
  have hitmem : it ∈ items := List.get?_mem hidx
  obtain ⟨hne0, hlast0⟩ := hok it hitmem
  have hgl : it.numbers.getLast hne0 = n := by
    have h1 : it.numbers.getLast? = some n := hlast0 ▸ hlast
    rw [List.getLast?_eq_getLast _ hne0] at h1
    exact Option.some.inj h1
  have hsplit : it.numbers.dropLast ++ [n] = it.numbers := by
    rw [← hgl]; exact List.dropLast_concat_getLast hne0
  have hdrop : items.drop idx = it :: items.drop (idx + 1) := by
    rw [List.drop_eq_getElem_cons hlt]
    have hgetelem : items[idx] = it := by
      rcases List.get?_eq_some.mp hidx with ⟨h2, hh⟩
      simpa [List.get_eq_getElem] using hh
    rw [hgetelem]
  have hitems : items = items.take idx ++ it :: items.drop (idx + 1) := by
    conv_lhs => rw [← List.take_append_drop idx items]
    rw [hdrop]
  have hBne : items.drop (idx + 1) ≠ [] := by
    intro hB
    rw [List.drop_eq_nil_iff] at hB
    omega
  obtain ⟨b, B2, hB⟩ := List.exists_cons_of_ne_nil hBne
  have hbmem : b ∈ items := by
    rw [hitems, hB]; simp
  obtain ⟨hbne, -⟩ := hok b hbmem
  obtain ⟨y, hy⟩ := List.exists_mem_of_ne_nil _ hbne
  have hflat2 : itemsNumbers items =
      itemsNumbers (items.take idx) ++
        (it.numbers.dropLast ++ (n :: (b.numbers ++ itemsNumbers B2))) := by
    conv_lhs => rw [hitems, hB]
    rw [itemsNumbers_append, itemsNumbers_cons, itemsNumbers_cons, ← hsplit]
    simp
  have hpw : (itemsNumbers items).Pairwise (· < ·) := by
    rw [hflat]; exact List.pairwise_lt_range' 1 n
  rw [hflat2] at hpw
  have hpw1 := (List.pairwise_append.mp hpw).2.1
  have hpw2 := (List.pairwise_append.mp hpw1).2.1
  have hny : n < y := (List.pairwise_cons.mp hpw2).1 y (List.mem_append_left _ hy)
  have hymem : y ∈ itemsNumbers items := by
    rw [hflat2]
    refine List.mem_append_right _ (List.mem_append_right _ ?_)
    exact List.mem_cons_of_mem _ (List.mem_append_left _ hy)
  rw [hflat] at hymem
  have hyn := (List.mem_range'_1.mp hymem).2
  omega


/-- Numbering invariants of one page entry's item list. -/
structure NumInv (items : List PlanItem) (nextNumber : Nat) : Prop where
  pos : 1 ≤ nextNumber
  flat : itemsNumbers items = List.range' 1 (nextNumber - 1)
  itemsOk : ∀ it ∈ items, it.numbers ≠ [] ∧
    it.lastAssignedNumber = it.numbers.getLast?

/-- Numbering invariant of the running state: each page entry is
well-numbered and its `nextNumber` counts the references resolved to
that page so far, plus one. -/
def StateNumInv (s : PlanState) (cnt : Nat → Nat) : Prop :=
  (∀ p e, alistGet s.pages p = some e →
    NumInv e.items e.nextNumber ∧ e.nextNumber = cnt p + 1) ∧
  (∀ p, alistGet s.pages p = none → cnt p = 0)

theorem itemIsContiguous_facts {items : List PlanItem} {an idx : Nat}
    (h : itemIsContiguous items an (some idx) = true) :
    ∃ it, items.get? idx = some it ∧
      ∃ m, it.lastAssignedNumber = some m ∧ m + 1 = an := by
  simp only [itemIsContiguous] at h
  rcases hg : items.get? idx with _ | it <;> rw [hg] at h
  · simp at h
  · rcases hl : it.lastAssignedNumber with _ | m
    · simp [hl] at h
    · simp only [hl] at h
      exact ⟨it, rfl, m, hl, by simpa using h⟩

theorem planMergeCandidate_contiguous {entry : PageEntry} {an : Nat}
    {tid : String} {gk : Option String} {idx : Nat}
    (h : planMergeCandidate entry an tid gk = some idx) :
    ∃ it, entry.items.get? idx = some it ∧
      ∃ m, it.lastAssignedNumber = some m ∧ m + 1 = an := by
  simp only [planMergeCandidate] at h
  split at h
  next i heq =>
    cases h
    split at heq
    next hcond =>
      rw [heq] at hcond
      exact itemIsContiguous_facts hcond
    next => cases heq
  next heq =>
    clear heq
    split at h
    next k heq2 =>
      split at h
      next hcond =>
        rw [h] at hcond
        exact itemIsContiguous_facts hcond
      next => cases h
    next heq2 => cases h

theorem finishPlanStep_numInv {s : PlanState} {page : Nat} {entry : PageEntry}
    {idx an : Nat} {ref : FootnoteRef} {gk : Option String} {nc : Nat}
    {cnt2 : Nat → Nat}
    (hmod : NumInv (listModify entry.items idx (pushAssignedNumber an))
      entry.nextNumber)
    (hnext : entry.nextNumber = cnt2 page + 1)
    (hrest : ∀ p' e', p' ≠ page → alistGet s.pages p' = some e' →
      NumInv e'.items e'.nextNumber ∧ e'.nextNumber = cnt2 p' + 1)
    (hnone : ∀ p', p' ≠ page → alistGet s.pages p' = none → cnt2 p' = 0) :
    StateNumInv (finishPlanStep s page entry idx an ref gk nc) cnt2 := by
  constructor
  · intro p' e' hget
    unfold finishPlanStep at hget
    simp only at hget
    by_cases hp : p' = page
    · subst hp
      rw [alistGet_set_self] at hget
      cases hget
      exact ⟨hmod, hnext⟩
    · rw [alistGet_set_ne _ _ _ _ hp] at hget
      exact hrest p' e' hp hget
  · intro p' hget
    unfold finishPlanStep at hget
    simp only at hget
    by_cases hp : p' = page
    · subst hp
      rw [alistGet_set_self] at hget
      cases hget
    · rw [alistGet_set_ne _ _ _ _ hp] at hget
      exact hnone p' hp hget


theorem pushAssignedNumber_numbers (an : Nat) (it : PlanItem) :
    (pushAssignedNumber an it).numbers = it.numbers ++ [an] := rfl

theorem pushAssignedNumber_last (an : Nat) (it : PlanItem) :
    (pushAssignedNumber an it).lastAssignedNumber = some an := rfl

/-- Allocating a fresh item and assigning it the next number keeps the
page numbering exactly `1..nextNumber`. -/
theorem numInv_alloc {items : List PlanItem} {N : Nat} (hinv : NumInv items N)
    (x : PlanItem) (hx : x.numbers = []) :
    NumInv (listModify (items ++ [x]) items.length (pushAssignedNumber N)) (N + 1) := by
  have hlm : listModify (items ++ [x]) items.length (pushAssignedNumber N) =
      items ++ [pushAssignedNumber N x] := by
    rw [listModify_eq_of_get? _ (List.get?_concat_length _ _), List.take_left]
    have hd : (items ++ [x]).drop (items.length + 1) = ([] : List PlanItem) := by
      rw [List.drop_eq_nil_iff]; simp
    rw [hd]
  rw [hlm]
  have hpos := hinv.pos
  refine { pos := by omega, flat := ?_, itemsOk := ?_ }
  · rw [itemsNumbers_append, hinv.flat]
    simp only [itemsNumbers, List.map_cons, List.map_nil, List.flatten_cons,
      List.flatten_nil, pushAssignedNumber_numbers, hx, List.nil_append,
      List.append_nil]
    have h1 : N + 1 - 1 = (N - 1) + 1 := by omega
    rw [h1, List.range'_1_concat]
    have h2 : 1 + (N - 1) = N := by omega
    rw [h2]
  · intro it hit
    rcases List.mem_append.mp hit with hm | hm
    · exact hinv.itemsOk it hm
    · rw [List.mem_singleton.mp hm]
      constructor
      · rw [pushAssignedNumber_numbers]; simp
      · rw [pushAssignedNumber_numbers, pushAssignedNumber_last, List.getLast?_concat]

/-- Merging the next number into the contiguous last item keeps the page
numbering exactly `1..nextNumber`. -/
theorem numInv_merge {items : List PlanItem} {N idx m : Nat} {it : PlanItem}
    {tid : String} (hinv : NumInv items N)
    (hidx : items.get? idx = some it)
    (hlast : it.lastAssignedNumber = some m) (hmN : m + 1 = N) :
    NumInv (listModify (listModify items idx (addRefTargetId tid)) idx
      (pushAssignedNumber N)) (N + 1) := by
  have hpos := hinv.pos
  have hlastIdx : idx + 1 = items.length := by
    refine contiguous_is_last hinv.flat hinv.itemsOk hidx ?_
    have hmeq : m = N - 1 := by omega
    rw [hlast, hmeq]
  have hdropnil : items.drop (idx + 1) = [] := by
    rw [List.drop_eq_nil_iff]; omega
  have hitems1 : listModify items idx (addRefTargetId tid) =
      items.take idx ++ [addRefTargetId tid it] := by
    rw [listModify_eq_of_get? _ hidx, hdropnil]
  have hlen : (items.take idx).length = idx := by
    rw [List.length_take]; omega
  have hget2 : (items.take idx ++ [addRefTargetId tid it]).get? idx =
      some (addRefTargetId tid it) := by
    have hgc := List.get?_concat_length (items.take idx) (addRefTargetId tid it)
    rwa [hlen] at hgc
  have hitems2 : listModify (items.take idx ++ [addRefTargetId tid it]) idx
      (pushAssignedNumber N) =
      items.take idx ++ [pushAssignedNumber N (addRefTargetId tid it)] := by
    rw [listModify_eq_of_get? _ hget2]
    have hd : (items.take idx ++ [addRefTargetId tid it]).drop (idx + 1) =
        ([] : List PlanItem) := by
      rw [List.drop_eq_nil_iff]
      simp only [List.length_append, hlen, List.length_singleton]
      omega
    rw [hd, List.take_left' hlen]
  have hbaseSplit : items = items.take idx ++ [it] := by
    conv_lhs => rw [← List.take_append_drop idx items]
    congr 1
    have hlt : idx < items.length := by omega
    rw [List.drop_eq_getElem_cons hlt, hdropnil]
    have hgetelem : items[idx] = it := by
      rcases List.get?_eq_some.mp hidx with ⟨h2, hh⟩
      simpa [List.get_eq_getElem] using hh
    rw [hgetelem]
  rw [hitems1, hitems2]
  refine { pos := by omega, flat := ?_, itemsOk := ?_ }
  · rw [itemsNumbers_append]
    simp only [itemsNumbers, List.map_cons, List.map_nil, List.flatten_cons,
      List.flatten_nil, pushAssignedNumber_numbers, addRefTargetId_numbers,
      List.append_nil]
    have hflatTake : (List.map (fun x => x.numbers) (items.take idx)).flatten ++
        it.numbers = List.range' 1 (N - 1) := by
      have hf := hinv.flat
      conv at hf => lhs; rw [hbaseSplit]
      rw [itemsNumbers_append] at hf
      simpa [itemsNumbers] using hf
    rw [← List.append_assoc, hflatTake]
    have h1 : N + 1 - 1 = (N - 1) + 1 := by omega
    rw [h1, List.range'_1_concat]
    have h2 : 1 + (N - 1) = N := by omega
    rw [h2]
  · intro it2 hit2
    rcases List.mem_append.mp hit2 with hm2 | hm2
    · exact hinv.itemsOk it2 (List.take_subset _ _ hm2)
    · rw [List.mem_singleton.mp hm2]
      constructor
      · rw [pushAssignedNumber_numbers, addRefTargetId_numbers]
        simp
      · rw [pushAssignedNumber_numbers, pushAssignedNumber_last,
          addRefTargetId_numbers, List.getLast?_concat]

theorem planStep_numInv (mp : Nat → Option Nat)
    (defs : String → Option (List Segment)) (s : PlanState)
    (r : FootnoteRef) (cnt : Nat → Nat) (h : StateNumInv s cnt) :
    StateNumInv (planStep mp defs s r)
      (fun p => cnt p + if resolveMarkerPage mp r.refIndex = some p then 1 else 0) := by
  rcases hres : resolveMarkerPage mp r.refIndex with _ | page
  · constructor
    · intro p e hget
      have hg2 : alistGet s.pages p = some e := by
        simpa [planStep, hres] using hget
      simpa using h.1 p e hg2
    · intro p hget
      have hg2 : alistGet s.pages p = none := by
        simpa [planStep, hres] using hget
      simpa using h.2 p hg2
  · simp only [planStep, hres]
    set base := (alistGet s.pages page).getD (emptyPageEntry page) with hbase
    have hbaseFacts : NumInv base.items base.nextNumber ∧
        base.nextNumber = cnt page + 1 := by
      rcases hb : alistGet s.pages page with _ | e0
      · have hc0 : cnt page = 0 := h.2 page hb
        rw [hbase, hb]
        refine ⟨⟨by simp [emptyPageEntry], by simp [emptyPageEntry, itemsNumbers], ?_⟩, ?_⟩
        · simp [emptyPageEntry]
        · simp [emptyPageEntry, hc0]
      · rw [hbase, hb]
        simpa using h.1 page e0 hb
    obtain ⟨hbInv, hbNext⟩ := hbaseFacts
    have hcntNe : ∀ p, p ≠ page → cnt p +
        (if (some page : Option Nat) = some p then 1 else 0) = cnt p := by
      intro p hp
      simp [Ne.symm hp]
    have hrest : ∀ p' e', p' ≠ page → alistGet s.pages p' = some e' →
        NumInv e'.items e'.nextNumber ∧
        e'.nextNumber = (cnt p' + if (some page : Option Nat) = some p' then 1 else 0) + 1 := by
      intro p' e' hp hget
      rw [hcntNe p' hp]
      exact h.1 p' e' hget
    have hnone : ∀ p', p' ≠ page → alistGet s.pages p' = none →
        cnt p' + (if (some page : Option Nat) = some p' then 1 else 0) = 0 := by
      intro p' hp hget
      rw [hcntNe p' hp]
      exact h.2 p' hget
    rcases hcand : planMergeCandidate
        { base with nextNumber := base.nextNumber + 1 }
        base.nextNumber r.targetId (definitionGroupKeyOf defs r.targetId) with _ | idx
    · exact finishPlanStep_numInv (numInv_alloc hbInv _ rfl)
        (by simp [hbNext]) hrest hnone
    · obtain ⟨it, hidx, m, hlast, hm⟩ := planMergeCandidate_contiguous hcand
      simp only at hidx
      exact finishPlanStep_numInv (numInv_merge hbInv hidx hlast hm)
        (by simp [hbNext]) hrest hnone


theorem buildPlan_fold_numInv (mp : Nat → Option Nat)
    (defs : String → Option (List Segment)) :
    ∀ (refs : List FootnoteRef) (s : PlanState) (cnt : Nat → Nat),
      StateNumInv s cnt →
      StateNumInv (refs.foldl (planStep mp defs) s)
        (fun p => cnt p + (refs.filter
          (fun r => resolveMarkerPage mp r.refIndex = some p)).length) := by
  intro refs
  induction refs with
  | nil => intro s cnt h; simpa using h
  | cons r rest ih =>
      intro s cnt h
      rw [List.foldl_cons]
      have h2 := ih _ _ (planStep_numInv mp defs s r cnt h)
      have hfun : (fun p => cnt p + ((r :: rest).filter
            (fun r2 => resolveMarkerPage mp r2.refIndex = some p)).length) =
          (fun p => (cnt p +
            if resolveMarkerPage mp r.refIndex = some p then 1 else 0) +
            (rest.filter
              (fun r2 => resolveMarkerPage mp r2.refIndex = some p)).length) := by
        funext p
        rw [List.filter_cons]
        by_cases hq : resolveMarkerPage mp r.refIndex = some p
        · simp [hq]
          try omega
        · simp [hq]
      rw [hfun]
      exact h2

/-- C1: in the returned plan, the concatenation of the `numbers` lists of
any page's items, in item/assignment order, is exactly the sequence
`1..N`, where `N` is the number of references resolved to that page —
no gaps, no repeats. -/
theorem buildFootnotePagePlan_page_numbers (refs : List FootnoteRef)
    (mp : Nat → Option Nat) (defs : String → Option (List Segment)) :
    ∀ P ∈ (buildFootnotePagePlan refs mp defs).pages,
      (P.items.map (·.numbers)).flatten =
        List.range' 1 ((refs.filter
          (fun r => resolveMarkerPage mp r.refIndex = some P.page)).length) := by
  intro P hP
  have hinit : StateNumInv ⟨[], [], [], 0⟩ (fun _ => 0) := by
    constructor
    · intro p e hget
      simp [alistGet] at hget
    · intro p _
      rfl
  have hinv := buildPlan_fold_numInv mp defs refs ⟨[], [], [], 0⟩ (fun _ => 0) hinit
  simp only [buildFootnotePagePlan] at hP
  rcases List.mem_filterMap.mp hP with ⟨p, hp, hPeq⟩
  rcases hpe : alistGet (refs.foldl (planStep mp defs) ⟨[], [], [], 0⟩).pages p
    with _ | e
  · rw [hpe] at hPeq; cases hPeq
  · rw [hpe] at hPeq
    have hPeq2 : PagePlanOut.mk p (e.items.map exportPlanItem) = P :=
      Option.some.inj hPeq
    subst hPeq2
    obtain ⟨hN, hnext⟩ := hinv.1 p e hpe
    have hmap : ((e.items.map exportPlanItem).map (·.numbers)).flatten =
        itemsNumbers e.items := by
      rw [List.map_map]
      rfl
    have hcount : e.nextNumber - 1 = (refs.filter
        (fun r => resolveMarkerPage mp r.refIndex = some p)).length := by
      simp only [Nat.zero_add] at hnext
      omega
    calc ((e.items.map exportPlanItem).map (·.numbers)).flatten
        = itemsNumbers e.items := hmap
      _ = List.range' 1 (e.nextNumber - 1) := hN.flat
      _ = _ := by rw [hcount]

/-- Witness for C1 at a concrete page of a three-reference input. -/
theorem buildFootnotePagePlan_page_numbers_witness :
    (((⟨2, [⟨"a", ["a"], 1, "1", [1], "export-footnote-1-a",
        [⟨"(footnote text unavailable)", none⟩]⟩,
      ⟨"c", ["c"], 2, "2", [2], "export-footnote-3-c",
        [⟨"(footnote text unavailable)", none⟩]⟩]⟩ : PagePlanOut).items.map
          (·.numbers)).flatten) =
      List.range' 1 (([(⟨0, "a"⟩ : FootnoteRef), ⟨1, "b"⟩, ⟨2, "c"⟩].filter
        (fun r => resolveMarkerPage (fun i => if i = 1 then some 4 else some 2)
          r.refIndex = some (⟨2, [⟨"a", ["a"], 1, "1", [1], "export-footnote-1-a",
            [⟨"(footnote text unavailable)", none⟩]⟩,
          ⟨"c", ["c"], 2, "2", [2], "export-footnote-3-c",
            [⟨"(footnote text unavailable)", none⟩]⟩]⟩ : PagePlanOut).page)).length) :=
  buildFootnotePagePlan_page_numbers [⟨0, "a"⟩, ⟨1, "b"⟩, ⟨2, "c"⟩]
    (fun i => if i = 1 then some 4 else some 2) (fun _ => none)
    ⟨2, [⟨"a", ["a"], 1, "1", [1], "export-footnote-1-a",
        [⟨"(footnote text unavailable)", none⟩]⟩,
      ⟨"c", ["c"], 2, "2", [2], "export-footnote-3-c",
        [⟨"(footnote text unavailable)", none⟩]⟩]⟩ (by decide)

/-! ### C6: line width budget -/

/-- Generic preservation of a predicate along `List.foldl`, with the
step hypothesis restricted to members of the list. -/
theorem foldl_mem_inv {α β : Type} (f : α → β → α) (P : α → Prop) :
    ∀ (l : List β) (a : α), P a →
      (∀ (a2 : α) (b : β), b ∈ l → P a2 → P (f a2 b)) → P (l.foldl f a) := by
  intro l
  induction l with
  | nil => intro a ha _; exact ha
  | cons x t ih =>
      intro a ha hstep
      exact ih (f a x) (hstep a x (by simp) ha)
        (fun a2 b hb h2 => hstep a2 b (by simp [hb]) h2)

/-- The second component of an `enumFrom` entry is a member of the list. -/
theorem snd_mem_of_mem_enumFrom {α : Type} :
    ∀ (l : List α) (n : Nat) (p : Nat × α), p ∈ l.enumFrom n → p.2 ∈ l := by
  intro l
  induction l with
  | nil => intro n p h; simp [List.enumFrom] at h
  | cons x t ih =>
      intro n p h
      simp only [List.enumFrom, List.mem_cons] at h
      rcases h with h | h
      · simp [h]
      · exact List.mem_cons_of_mem _ (ih (n + 1) p h)

/-- The second component of an `enum` entry is a member of the list. -/
theorem snd_mem_of_mem_enum {α : Type} (l : List α) (p : Nat × α)
    (h : p ∈ l.enum) : p.2 ∈ l :=
  snd_mem_of_mem_enumFrom l 0 p h

theorem fragSum_nil : fragSum [] = 0 := rfl

theorem fragSum_cons (f : TextFragment) (l : List TextFragment) :
    fragSum (f :: l) = f.width + fragSum l := by
  simp [fragSum]

theorem fragSum_append (a b : List TextFragment) :
    fragSum (a ++ b) = fragSum a + fragSum b := by
  simp [fragSum]

theorem fragSum_reverse (l : List TextFragment) :
    fragSum l.reverse = fragSum l := by
  simp [fragSum, List.sum_reverse]

theorem fragSum_nonneg {l : List TextFragment}
    (h : ∀ f ∈ l, 0 < f.width) : 0 ≤ fragSum l := by
  induction l with
  | nil => simp [fragSum]
  | cons f t ih =>
      rw [fragSum_cons]
      have h1 := h f (by simp)
      have h2 := ih (fun g hg => h g (by simp [hg]))
      linarith

theorem fragSum_pos {l : List TextFragment}
    (h : ∀ f ∈ l, 0 < f.width) (hne : l ≠ []) : 0 < fragSum l := by
  cases l with
  | nil => exact absurd rfl hne
  | cons f t =>
      rw [fragSum_cons]
      have h1 := h f (by simp)
      have h2 := fragSum_nonneg (fun g hg => h g (List.mem_cons_of_mem f hg))
      linarith

/-- Members of `mapLast f l` come from `l`, possibly through `f`. -/
theorem mem_mapLast {α : Type} (f : α → α) {x : α} :
    ∀ l : List α, x ∈ mapLast f l → x ∈ l ∨ ∃ y ∈ l, x = f y := by
  intro l
  induction l with
  | nil => intro h; simp [mapLast] at h
  | cons a t ih =>
      cases t with
      | nil =>
          intro h
          simp only [mapLast, List.mem_singleton] at h
          exact Or.inr ⟨a, by simp, h⟩
      | cons b t2 =>
          intro h
          simp only [mapLast, List.mem_cons] at h
          rcases h with h | h
          · exact Or.inl (by simp [h])
          · rcases ih h with h2 | ⟨y, hy, hxy⟩
            · exact Or.inl (List.mem_cons_of_mem _ h2)
            · exact Or.inr ⟨y, List.mem_cons_of_mem _ hy, hxy⟩

/-- Widening the last fragment adds its extra width to the line sum. -/
theorem fragSum_mapLast_add (tx : String) (w : ℚ) :
    ∀ l : List TextFragment, l ≠ [] →
      fragSum (mapLast
          (fun f => { f with text := f.text ++ tx, width := f.width + w }) l)
        = fragSum l + w := by
  intro l
  induction l with
  | nil => intro h; exact absurd rfl h
  | cons a t ih =>
      cases t with
      | nil =>
          intro _
          simp only [mapLast, fragSum, List.map, List.sum_cons, List.sum_nil]
          ring
      | cons b t2 =>
          intro _
          have h2 := ih (by simp)
          simp only [mapLast] at h2 ⊢
          rw [fragSum_cons, fragSum_cons, h2]
          ring

/-- A laid-out line either fits the width budget, or is a lone non-space
fragment holding a single glyph whose measured width alone exceeds the
budget (the glyph-chunking escape hatch of `splitWordByWidth`). -/
def GoodLine (measure : String → ℚ) (maxWidthPt : ℚ)
    (l : List TextFragment) : Prop :=
  fragSum l ≤ maxWidthPt ∨
    ∃ f, l = [f] ∧ f.isSpace = false ∧ f.text.data.length = 1 ∧
      f.width = measure f.text ∧ maxWidthPt < f.width

/-- Loop invariant of the layout closure state: committed lines are good,
the running width caches the open line's fragment sum, fragment widths
are positive, and the open line is itself good. -/
structure WidthInv (measure : String → ℚ) (maxWidthPt : ℚ)
    (st : LayoutState) : Prop where
  linesGood : ∀ l ∈ st.lines, GoodLine measure maxWidthPt l
  width_eq : st.currentWidth = fragSum st.currentLine
  pos : ∀ f ∈ st.currentLine, 0 < f.width
  openGood : GoodLine measure maxWidthPt st.currentLine

/-- `trimTrailingSpaces` decomposed: the lines are untouched, the open
line loses a suffix of space fragments, and the width cache is reduced
by the dropped fragments' widths. -/
theorem trimTrailingSpaces_decomp (st : LayoutState) :
    (trimTrailingSpaces st).lines = st.lines ∧
    st.currentLine = (trimTrailingSpaces st).currentLine
        ++ (st.currentLine.reverse.takeWhile (·.isSpace)).reverse ∧
    (∀ f ∈ st.currentLine.reverse.takeWhile (·.isSpace), f.isSpace = true) ∧
    (trimTrailingSpaces st).currentWidth
      = st.currentWidth - fragSum (st.currentLine.reverse.takeWhile (·.isSpace)) := by
  refine ⟨rfl, ?_, ?_, rfl⟩
  · have h := congrArg List.reverse
      (List.takeWhile_append_dropWhile (·.isSpace) st.currentLine.reverse)
    rw [List.reverse_append, List.reverse_reverse] at h
    exact h.symm
  · intro f hf
    exact List.mem_takeWhile_imp hf

/-- `trimTrailingSpaces` preserves the layout invariant. -/
theorem trimTrailingSpaces_inv (measure : String → ℚ) (maxWidthPt : ℚ)
    (st : LayoutState) (h : WidthInv measure maxWidthPt st) :
    WidthInv measure maxWidthPt (trimTrailingSpaces st) := by
  obtain ⟨hlines, hdec, hdsp, hwidth⟩ := trimTrailingSpaces_decomp st
  have hmemt : ∀ f ∈ (trimTrailingSpaces st).currentLine, f ∈ st.currentLine := by
    intro f hf
    rw [hdec]
    exact List.mem_append_left _ hf
  have hmemd : ∀ f ∈ (st.currentLine.reverse.takeWhile (·.isSpace)).reverse,
      f ∈ st.currentLine := by
    intro f hf
    rw [hdec]
    exact List.mem_append_right _ hf
  have hsum : fragSum st.currentLine
      = fragSum (trimTrailingSpaces st).currentLine
        + fragSum (st.currentLine.reverse.takeWhile (·.isSpace)) := by
    conv_lhs => rw [hdec]
    rw [fragSum_append, fragSum_reverse]
  have hdnn : 0 ≤ fragSum (st.currentLine.reverse.takeWhile (·.isSpace)) := by
    rw [← fragSum_reverse]
    exact fragSum_nonneg (fun f hf => h.pos f (hmemd f hf))
  refine ⟨?_, ?_, ?_, ?_⟩
  · rw [hlines]; exact h.linesGood
  · rw [hwidth, h.width_eq, hsum]; ring
  · intro f hf; exact h.pos f (hmemt f hf)
  · rcases h.openGood with hg | ⟨f, hfl, hfs, hfg, hfw, hfm⟩
    · left
      have : fragSum (trimTrailingSpaces st).currentLine ≤ fragSum st.currentLine := by
        rw [hsum]; linarith
      linarith
    · -- the open line is a lone non-space fragment: trimming drops nothing
      rcases hde : (st.currentLine.reverse.takeWhile (·.isSpace)).reverse with _ | ⟨d, dr⟩
      · rw [hde, List.append_nil] at hdec
        right
        exact ⟨f, hdec.symm.trans hfl, hfs, hfg, hfw, hfm⟩
      · exfalso
        have hdsp2 : d.isSpace = true := by
          have hdm : d ∈ (st.currentLine.reverse.takeWhile (·.isSpace)).reverse := by
            rw [hde]; simp
          exact hdsp d (List.mem_reverse.mp hdm)
        rw [hde, hfl] at hdec
        rcases htl : (trimTrailingSpaces st).currentLine with _ | ⟨a, ar⟩
        · rw [htl, List.nil_append] at hdec
          injection hdec with h1 h2
          rw [← h1] at hdsp2
          rw [hfs] at hdsp2
          exact Bool.false_ne_true hdsp2
        · rw [htl, List.cons_append] at hdec
          injection hdec with h1 h2
          exact (List.cons_ne_nil d dr) (List.append_eq_nil.mp h2.symm).2

/-- `commitLine` preserves the layout invariant and empties the open line. -/
theorem commitLine_inv (measure : String → ℚ) (maxWidthPt : ℚ) (b : Bool)
    (st : LayoutState) (hmax : 0 ≤ maxWidthPt)
    (h : WidthInv measure maxWidthPt st) :
    WidthInv measure maxWidthPt (commitLine b st) ∧
    (commitLine b st).currentLine = [] ∧ (commitLine b st).currentWidth = 0 := by
  have htr := trimTrailingSpaces_inv measure maxWidthPt st h
  refine ⟨⟨?_, ?_, ?_, ?_⟩, rfl, rfl⟩
  · intro l hl
    simp only [commitLine] at hl
    rcases hc : (b || !(trimTrailingSpaces st).currentLine.isEmpty) with _ | _
    · rw [hc] at hl
      simp at hl
      exact htr.linesGood l hl
    · rw [hc] at hl
      simp at hl
      rcases hl with hl | hl
      · exact htr.linesGood l hl
      · rw [hl]; exact htr.openGood
  · rfl
  · intro f hf; simp [commitLine] at hf
  · left
    simp only [commitLine, fragSum, List.map_nil, List.sum_nil]
    exact hmax

/-- `appendFragment` preserves the layout invariant, provided the new
fragment either starts a line (and fits or is a single glyph), or fits
after the current content. -/
theorem appendFragment_inv (measure : String → ℚ) (maxWidthPt : ℚ)
    (text : String) (href : Option String) (isSp : Bool) (st : LayoutState)
    (h : WidthInv measure maxWidthPt st)
    (hfit : 0 < measure text →
      (st.currentLine = [] ∧
        (measure text ≤ maxWidthPt ∨ (isSp = false ∧ text.data.length = 1))) ∨
      st.currentWidth + measure text ≤ maxWidthPt) :
    WidthInv measure maxWidthPt (appendFragment measure text href isSp st) ∧
    (appendFragment measure text href isSp st).lines = st.lines := by
  by_cases h0 : text = ""
  · simp only [appendFragment, if_pos h0]
    exact ⟨h, by trivial⟩
  simp only [appendFragment, if_neg h0]
  by_cases hw : measure text ≤ 0
  · simp only [if_pos hw]
    exact ⟨h, by trivial⟩
  simp only [if_neg hw]
  push_neg at hw
  split
  next last heq =>
    have hne : st.currentLine ≠ [] := by
      intro hn
      rw [hn] at heq
      simp at heq
    have hfit2 : st.currentWidth + measure text ≤ maxWidthPt := by
      rcases hfit hw with ⟨hnil, -⟩ | h2
      · exact absurd hnil hne
      · exact h2
    split
    next hcond =>
      -- merge into the last fragment
      refine ⟨⟨?_, ?_, ?_, ?_⟩, rfl⟩
      · exact h.linesGood
      · show st.currentWidth + measure text = _
        rw [fragSum_mapLast_add text (measure text) st.currentLine hne, h.width_eq]
      · intro f hf
        rcases mem_mapLast _ st.currentLine hf with hm | ⟨y, hy, hxy⟩
        · exact h.pos f hm
        · have : f.width = y.width + measure text := by rw [hxy]
          have := h.pos y hy
          rw [hxy]
          show 0 < y.width + measure text
          linarith
      · left
        show fragSum (mapLast _ st.currentLine) ≤ maxWidthPt
        rw [fragSum_mapLast_add text (measure text) st.currentLine hne]
        rw [← h.width_eq]
        exact hfit2
    next hcond =>
      -- push a new fragment
      refine ⟨⟨?_, ?_, ?_, ?_⟩, rfl⟩
      · exact h.linesGood
      · show st.currentWidth + measure text = _
        rw [fragSum_append, ← h.width_eq]
        simp [fragSum]
      · intro f hf
        rcases List.mem_append.mp hf with hm | hm
        · exact h.pos f hm
        · rw [List.mem_singleton.mp hm]
          exact hw
      · left
        rw [fragSum_append, ← h.width_eq]
        simp only [fragSum, List.map_cons, List.map_nil, List.sum_cons,
          List.sum_nil, add_zero]
        exact hfit2
  next heq =>
    have hnil : st.currentLine = [] := List.getLast?_eq_none_iff.mp heq
    have hcw : st.currentWidth = 0 := by
      rw [h.width_eq, hnil, fragSum_nil]
    refine ⟨⟨?_, ?_, ?_, ?_⟩, rfl⟩
    · exact h.linesGood
    · show st.currentWidth + measure text = _
      rw [hcw]
      simp [fragSum]
    · intro f hf
      rw [List.mem_singleton.mp hf]
      exact hw
    · rcases hfit hw with ⟨-, hca⟩ | h2
      · by_cases hle : measure text ≤ maxWidthPt
        · left
          show fragSum [_] ≤ maxWidthPt
          simp [fragSum]
          exact hle
        · rcases hca with hca | ⟨hsp, hlen⟩
          · exact absurd hca hle
          · right
            refine ⟨_, rfl, ?_, ?_, rfl, ?_⟩
            · exact hsp
            · exact hlen
            · show maxWidthPt < measure text
              linarith [lt_of_not_le hle]
      · left
        show fragSum [_] ≤ maxWidthPt
        simp only [fragSum, List.map_cons, List.map_nil, List.sum_cons,
          List.sum_nil, add_zero]
        rw [hcw] at h2
        linarith

/-- Every chunk emitted by `splitWordStep` fits the budget or is a
single glyph, and the pending chunk is empty or does too. -/
theorem splitWordStep_inv (measure : String → ℚ) (maxWidthPt : ℚ)
    (st : List String × String) (g : Char)
    (h1 : ∀ c ∈ st.1, measure c ≤ maxWidthPt ∨ c.data.length = 1)
    (h2 : st.2 = "" ∨ measure st.2 ≤ maxWidthPt ∨ st.2.data.length = 1) :
    (∀ c ∈ (splitWordStep measure maxWidthPt st g).1,
        measure c ≤ maxWidthPt ∨ c.data.length = 1) ∧
    ((splitWordStep measure maxWidthPt st g).2 = "" ∨
      measure (splitWordStep measure maxWidthPt st g).2 ≤ maxWidthPt ∨
      (splitWordStep measure maxWidthPt st g).2.data.length = 1) := by
  simp only [splitWordStep]
  by_cases hc : st.2 ≠ "" ∧ measure (st.2.push g) > maxWidthPt
  · rw [if_pos hc]
    refine ⟨?_, ?_⟩
    · intro c hcm
      rcases List.mem_append.mp hcm with hm | hm
      · exact h1 c hm
      · rw [List.mem_singleton.mp hm]
        rcases h2 with h2 | h2
        · exact absurd h2 hc.1
        · exact h2
    · right; right
      simp
  · rw [if_neg hc]
    refine ⟨h1, ?_⟩
    by_cases hb : st.2 = ""
    · right; right
      rw [hb]
      simp
    · right; left
      by_contra hgt
      exact hc ⟨hb, lt_of_not_le (fun hle => hgt hle)⟩

/-- Every chunk produced by `splitWordByWidth` fits the budget or is a
single glyph. -/
theorem splitWordByWidth_chunks (measure : String → ℚ) (maxWidthPt : ℚ)
    (word : String) :
    ∀ c ∈ splitWordByWidth measure word maxWidthPt,
      measure c ≤ maxWidthPt ∨ c.data.length = 1 := by
  simp only [splitWordByWidth]
  by_cases he : word.data.isEmpty
  · rw [if_pos he]
    intro c hc
    simp at hc
  rw [if_neg he]
  have main : ∀ (l : List Char) (s : List String × String),
      (∀ c ∈ s.1, measure c ≤ maxWidthPt ∨ c.data.length = 1) →
      (s.2 = "" ∨ measure s.2 ≤ maxWidthPt ∨ s.2.data.length = 1) →
      (∀ c ∈ (l.foldl (splitWordStep measure maxWidthPt) s).1,
          measure c ≤ maxWidthPt ∨ c.data.length = 1) ∧
      ((l.foldl (splitWordStep measure maxWidthPt) s).2 = "" ∨
        measure (l.foldl (splitWordStep measure maxWidthPt) s).2 ≤ maxWidthPt ∨
        (l.foldl (splitWordStep measure maxWidthPt) s).2.data.length = 1) := by
    intro l
    induction l with
    | nil => intro s hs1 hs2; exact ⟨hs1, hs2⟩
    | cons x t ih =>
        intro s hs1 hs2
        have hstep := splitWordStep_inv measure maxWidthPt s x hs1 hs2
        exact ih _ hstep.1 hstep.2
  obtain ⟨ha, hb⟩ := main word.data ([], "") (by simp) (Or.inl rfl)
  by_cases hz : (word.data.foldl (splitWordStep measure maxWidthPt) ([], "")).2 = ""
  · rw [if_pos hz]
    exact ha
  · rw [if_neg hz]
    intro c hc
    rcases List.mem_append.mp hc with hm | hm
    · exact ha c hm
    · rw [List.mem_singleton.mp hm]
      rcases hb with hb | hb
      · exact absurd hb hz
      · exact hb

/-- `layoutChunk` preserves the layout invariant when the chunk fits the
budget or is a single glyph. -/
theorem layoutChunk_inv (measure : String → ℚ) (maxWidthPt : ℚ)
    (href : Option String) (total : Nat) (st : LayoutState) (p : Nat × String)
    (hmax : 0 ≤ maxWidthPt)
    (hchunk : measure p.2 ≤ maxWidthPt ∨ p.2.data.length = 1)
    (h : WidthInv measure maxWidthPt st) :
    WidthInv measure maxWidthPt (layoutChunk measure maxWidthPt href total st p) := by
  have key : ∀ st2 : LayoutState, WidthInv measure maxWidthPt st2 →
      (st2.currentLine = [] ∨ st2.currentWidth + measure p.2 ≤ maxWidthPt) →
      WidthInv measure maxWidthPt (appendFragment measure p.2 href false st2) := by
    intro st2 h2 hc
    refine (appendFragment_inv measure maxWidthPt p.2 href false st2 h2 ?_).1
    intro hw
    rcases hc with hc | hc
    · left
      refine ⟨hc, ?_⟩
      rcases hchunk with hk | hk
      · exact Or.inl hk
      · exact Or.inr ⟨rfl, hk⟩
    · right; exact hc
  simp only [layoutChunk]
  by_cases h1 : st.currentWidth > 0 ∧ st.currentWidth + measure p.2 > maxWidthPt
  · rw [if_pos h1]
    have hcom := commitLine_inv measure maxWidthPt false st hmax h
    have happ := key _ hcom.1 (Or.inl hcom.2.1)
    by_cases h2 : p.1 < total - 1
    · rw [if_pos h2]
      exact (commitLine_inv measure maxWidthPt false _ hmax happ).1
    · rw [if_neg h2]
      exact happ
  · rw [if_neg h1]
    have hside : st.currentLine = [] ∨ st.currentWidth + measure p.2 ≤ maxWidthPt := by
      by_cases hcw : st.currentWidth > 0
      · right
        by_contra hgt
        exact h1 ⟨hcw, lt_of_not_le (fun hle => hgt hle)⟩
      · left
        by_contra hne
        have := fragSum_pos h.pos hne
        rw [← h.width_eq] at this
        exact hcw this
    have happ := key st h hside
    by_cases h2 : p.1 < total - 1
    · rw [if_pos h2]
      exact (commitLine_inv measure maxWidthPt false _ hmax happ).1
    · rw [if_neg h2]
      exact happ

/-- `layoutWordOrSpace` preserves the layout invariant. -/
theorem layoutWordOrSpace_inv (measure : String → ℚ) (maxWidthPt : ℚ)
    (href : Option String) (text : String) (isSp : Bool) (st : LayoutState)
    (hmax : 0 ≤ maxWidthPt)
    (h : WidthInv measure maxWidthPt st) :
    WidthInv measure maxWidthPt
      (layoutWordOrSpace measure maxWidthPt href text isSp st) := by
  simp only [layoutWordOrSpace]
  by_cases h0 : text = ""
  · rw [if_pos h0]; exact h
  rw [if_neg h0]
  by_cases h1 : isSp = true ∧ st.currentWidth ≤ 0
  · rw [if_pos h1]; exact h
  rw [if_neg h1]
  by_cases h2 : ¬isSp = true ∧ measure text > maxWidthPt
  · rw [if_pos h2]
    refine foldl_mem_inv _ (WidthInv measure maxWidthPt) _ st h ?_
    intro a b hb ha
    exact layoutChunk_inv measure maxWidthPt href _ a b hmax
      (splitWordByWidth_chunks measure maxWidthPt text b.2
        (snd_mem_of_mem_enum _ b hb)) ha
  · rw [if_neg h2]
    by_cases h3 : st.currentWidth > 0 ∧ st.currentWidth + measure text > maxWidthPt
    · rw [if_pos h3]
      have hcom := commitLine_inv measure maxWidthPt false st hmax h
      by_cases h4 : isSp = true
      · rw [if_pos h4]; exact hcom.1
      · rw [if_neg h4]
        refine (appendFragment_inv measure maxWidthPt text href isSp _ hcom.1 ?_).1
        intro hw
        left
        refine ⟨hcom.2.1, Or.inl ?_⟩
        by_contra hgt
        exact h2 ⟨h4, lt_of_not_le (fun hle => hgt hle)⟩
    · rw [if_neg h3]
      refine (appendFragment_inv measure maxWidthPt text href isSp st h ?_).1
      intro hw
      by_cases hcw : st.currentWidth > 0
      · right
        by_contra hgt
        exact h3 ⟨hcw, lt_of_not_le (fun hle => hgt hle)⟩
      · left
        have hnil : st.currentLine = [] := by
          by_contra hne
          have := fragSum_pos h.pos hne
          rw [← h.width_eq] at this
          exact hcw this
        refine ⟨hnil, ?_⟩
        cases hsp : isSp with
        | true =>
            exfalso
            have : st.currentWidth ≤ 0 := le_of_not_lt hcw
            exact h1 ⟨hsp, this⟩
        | false =>
            left
            by_contra hgt
            refine h2 ⟨?_, lt_of_not_le (fun hle => hgt hle)⟩
            rw [hsp]
            simp

/-- `layoutToken` preserves the layout invariant. -/
theorem layoutToken_inv (measure : String → ℚ) (maxWidthPt : ℚ)
    (href : Option String) (st : LayoutState) (tok : FootnoteToken)
    (hmax : 0 ≤ maxWidthPt) (h : WidthInv measure maxWidthPt st) :
    WidthInv measure maxWidthPt (layoutToken measure maxWidthPt href st tok) := by
  cases tok with
  | newline => exact (commitLine_inv measure maxWidthPt true st hmax h).1
  | space => exact layoutWordOrSpace_inv measure maxWidthPt href " " true st hmax h
  | text s => exact layoutWordOrSpace_inv measure maxWidthPt href s false st hmax h

/-- `layoutSegment` preserves the layout invariant. -/
theorem layoutSegment_inv (measure : String → ℚ) (maxWidthPt : ℚ)
    (st : LayoutState) (seg : Segment) (hmax : 0 ≤ maxWidthPt)
    (h : WidthInv measure maxWidthPt st) :
    WidthInv measure maxWidthPt (layoutSegment measure maxWidthPt st seg) := by
  simp only [layoutSegment]
  exact foldl_mem_inv _ (WidthInv measure maxWidthPt) _ st h
    (fun a b _ ha => layoutToken_inv measure maxWidthPt seg.href a b hmax ha)

/-- C6: for every positive width budget, every line produced by
`layoutFootnoteSegments` has a fragment-width sum that does not exceed
the budget, except that a line may consist of a single non-space
fragment holding one glyph (produced by the `splitWordByWidth` chunking)
whose measured width alone exceeds the budget. -/
theorem layoutFootnoteSegments_line_widths (measure : String → ℚ)
    (segments : List Segment) (maxWidthPt : ℚ) (hmax : 0 < maxWidthPt) :
    ∀ line ∈ layoutFootnoteSegments measure segments maxWidthPt,
      fragSum line ≤ maxWidthPt ∨
        ∃ f, line = [f] ∧ f.isSpace = false ∧ f.text.data.length = 1 ∧
          f.width = measure f.text ∧ maxWidthPt < measure f.text := by
  have hmax' : 0 ≤ maxWidthPt := le_of_lt hmax
  have hconv : ∀ l, GoodLine measure maxWidthPt l →
      (fragSum l ≤ maxWidthPt ∨
        ∃ f, l = [f] ∧ f.isSpace = false ∧ f.text.data.length = 1 ∧
          f.width = measure f.text ∧ maxWidthPt < measure f.text) := by
    intro l hg
    rcases hg with hg | ⟨f, h1, h2, h3, h4, h5⟩
    · exact Or.inl hg
    · right
      refine ⟨f, h1, h2, h3, h4, ?_⟩
      rw [← h4]
      exact h5
  have hinit : WidthInv measure maxWidthPt ⟨[], [], 0⟩ := by
    refine ⟨?_, rfl, ?_, Or.inl ?_⟩
    · intro l hl; simp at hl
    · intro f hf; simp at hf
    · simp only [fragSum, List.map_nil, List.sum_nil]
      exact hmax'
  have hfold : WidthInv measure maxWidthPt
      (segments.foldl (layoutSegment measure maxWidthPt) ⟨[], [], 0⟩) :=
    foldl_mem_inv _ (WidthInv measure maxWidthPt) segments ⟨[], [], 0⟩ hinit
      (fun a b _ ha => layoutSegment_inv measure maxWidthPt a b hmax' ha)
  have htrim := trimTrailingSpaces_inv measure maxWidthPt _ hfold
  intro line hline
  simp only [layoutFootnoteSegments] at hline
  by_cases hc1 : (trimTrailingSpaces
      (segments.foldl (layoutSegment measure maxWidthPt) ⟨[], [], 0⟩)).currentLine.isEmpty
  · simp only [if_pos hc1] at hline
    by_cases hc2 : (trimTrailingSpaces
        (segments.foldl (layoutSegment measure maxWidthPt) ⟨[], [], 0⟩)).lines.isEmpty
    · rw [if_pos hc2] at hline
      rw [List.mem_singleton.mp hline]
      left
      simp only [fragSum, List.map_nil, List.sum_nil]
      exact hmax'
    · rw [if_neg hc2] at hline
      exact hconv line (htrim.linesGood line hline)
  · simp only [if_neg hc1] at hline
    by_cases hc2 : ((trimTrailingSpaces
        (segments.foldl (layoutSegment measure maxWidthPt) ⟨[], [], 0⟩)).lines
          ++ [(trimTrailingSpaces
            (segments.foldl (layoutSegment measure maxWidthPt) ⟨[], [], 0⟩)).currentLine]).isEmpty
    · rw [if_pos hc2] at hline
      rw [List.mem_singleton.mp hline]
      left
      simp only [fragSum, List.map_nil, List.sum_nil]
      exact hmax'
    · rw [if_neg hc2] at hline
      rcases List.mem_append.mp hline with hm | hm
      · exact hconv line (htrim.linesGood line hm)
      · rw [List.mem_singleton.mp hm]
        exact hconv _ htrim.openGood

/-- Concrete instantiation of the C6 theorem: the empty segment list at
budget 10 yields the single empty line, which fits the budget. -/
theorem layoutFootnoteSegments_line_widths_witness :
    (0 : ℚ) < 10 ∧
      ([] : List TextFragment) ∈ layoutFootnoteSegments (fun _ => 1) [] 10 ∧
      (fragSum [] ≤ 10 ∨
        ∃ f, ([] : List TextFragment) = [f] ∧ f.isSpace = false ∧
          f.text.data.length = 1 ∧ f.width = 1 ∧ (10 : ℚ) < 1) := by
  have hmem : ([] : List TextFragment) ∈ layoutFootnoteSegments
      (fun _ => (1 : ℚ)) [] 10 := by
    simp [layoutFootnoteSegments, trimTrailingSpaces]
  exact ⟨by norm_num, hmem,
    layoutFootnoteSegments_line_widths (fun _ => 1) [] 10 (by norm_num) [] hmem⟩

/-! ### C7: text content through layout -/

/-- Concatenated text of one laid-out line. -/
def lineText (l : List TextFragment) : String := String.join (l.map (·.text))

/-- All text accumulated in a layout state: the committed lines in
order, then the open line. -/
def stateText (st : LayoutState) : String :=
  String.join (st.lines.map lineText) ++ lineText st.currentLine

theorem foldl_append_data (l : List String) : ∀ s : String,
    (l.foldl (fun r s2 => r ++ s2) s).data
      = s.data ++ (l.map String.data).flatten := by
  induction l with
  | nil => intro s; simp
  | cons x t ih =>
      intro s
      simp only [List.foldl_cons, List.map_cons, List.flatten_cons]
      rw [ih (s ++ x), String.data_append, List.append_assoc]

theorem data_join (l : List String) :
    (String.join l).data = (l.map String.data).flatten := by
  have h := foldl_append_data l ""
  have h0 : ("" : String).data = [] := rfl
  rw [h0, List.nil_append] at h
  exact h

theorem join_nil : String.join [] = "" := rfl

theorem join_cons (s : String) (l : List String) :
    String.join (s :: l) = s ++ String.join l := by
  apply String.ext
  rw [data_join, List.map_cons, List.flatten_cons, String.data_append, data_join]

theorem join_append (a b : List String) :
    String.join (a ++ b) = String.join a ++ String.join b := by
  apply String.ext
  rw [data_join, List.map_append, List.flatten_append, String.data_append,
    data_join, data_join]

theorem join_singleton (s : String) : String.join [s] = s := by
  rw [join_cons, join_nil, String.append_empty]

theorem mk_append (a b : List Char) : (⟨a ++ b⟩ : String) = ⟨a⟩ ++ ⟨b⟩ := rfl

theorem push_eq_append (s : String) (c : Char) : s.push c = s ++ ⟨[c]⟩ := by
  apply String.ext
  rw [String.data_push, String.data_append]

theorem stripJsWs_data (s : String) :
    (stripJsWs s).data = s.data.filter (fun c => !jsIsSpace c) := rfl

theorem stripJsWs_append (a b : String) :
    stripJsWs (a ++ b) = stripJsWs a ++ stripJsWs b := by
  apply String.ext
  rw [stripJsWs_data, String.data_append, String.data_append, stripJsWs_data,
    stripJsWs_data, List.filter_append]

theorem stripJsWs_empty : stripJsWs "" = "" := rfl

theorem stripJsWs_eq_empty (s : String)
    (h : ∀ c ∈ s.data, jsIsSpace c = true) : stripJsWs s = "" := by
  apply String.ext
  rw [stripJsWs_data]
  refine List.filter_eq_nil_iff.mpr ?_
  intro c hc
  simp [h c hc]

/-- Concatenated text of a token list. -/
def tokensText (ts : List FootnoteToken) : String := String.join (ts.map tokText)

theorem tokensText_nil : tokensText [] = "" := rfl

theorem tokensText_append (a b : List FootnoteToken) :
    tokensText (a ++ b) = tokensText a ++ tokensText b := by
  simp only [tokensText, List.map_append, join_append]

theorem tokensText_cons (t : FootnoteToken) (l : List FootnoteToken) :
    tokensText (t :: l) = tokText t ++ tokensText l := by
  simp only [tokensText, List.map_cons, join_cons]

theorem flushTokenBuffer_text (st : List FootnoteToken × List Char) :
    tokensText (flushTokenBuffer st) = tokensText st.1 ++ ⟨st.2⟩ := by
  simp only [flushTokenBuffer]
  by_cases he : st.2.isEmpty
  · rw [if_pos he]
    have h2 : (⟨st.2⟩ : String) = "" := by
      apply String.ext
      simpa using List.isEmpty_iff.mp he
    rw [h2, String.append_empty]
  · rw [if_neg he]
    rw [tokensText_append, tokensText_cons, tokensText_nil, String.append_empty]
    rfl

theorem flushTokenBuffer_nilbuf (l : List FootnoteToken) :
    flushTokenBuffer (l, []) = l := rfl

/-- One scanner step changes the flushed token text exactly by the
consumed character, up to whitespace removal. -/
theorem tokenizeStep_strip (st : List FootnoteToken × List Char) (c : Char) :
    stripJsWs (tokensText (flushTokenBuffer (tokenizeStep st c)))
      = stripJsWs (tokensText (flushTokenBuffer st)) ++ stripJsWs ⟨[c]⟩ := by
  simp only [tokenizeStep]
  by_cases h1 : c = '\n'
  · rw [if_pos h1]
    rw [flushTokenBuffer_nilbuf, tokensText_append, tokensText_cons,
      tokensText_nil, String.append_empty]
    have hnl : stripJsWs (tokText FootnoteToken.newline) = "" := rfl
    have hc : stripJsWs ⟨[c]⟩ = "" := by
      refine stripJsWs_eq_empty _ ?_
      intro d hd
      rw [h1] at hd
      simp only [List.mem_singleton] at hd
      rw [hd]
      decide
    rw [stripJsWs_append, hnl, hc, String.append_empty]
  rw [if_neg h1]
  by_cases h2 : jsIsSpace c = true
  · rw [if_pos h2]
    have hc : stripJsWs ⟨[c]⟩ = "" := by
      refine stripJsWs_eq_empty _ ?_
      intro d hd
      simp only [List.mem_singleton] at hd
      rw [hd]
      exact h2
    rw [hc, String.append_empty]
    split
    · rw [flushTokenBuffer_nilbuf]
    · rw [flushTokenBuffer_nilbuf, tokensText_append, tokensText_cons,
        tokensText_nil, String.append_empty, stripJsWs_append]
      have hsp : stripJsWs (tokText FootnoteToken.space) = "" := by
        refine stripJsWs_eq_empty _ ?_
        intro d hd
        simp only [tokText] at hd
        have : d = ' ' := by
          simpa using hd
        rw [this]
        decide
      rw [hsp, String.append_empty]
  · rw [if_neg h2]
    rw [flushTokenBuffer_text, flushTokenBuffer_text]
    show stripJsWs (tokensText st.1 ++ ⟨st.2 ++ [c]⟩)
      = stripJsWs (tokensText st.1 ++ ⟨st.2⟩) ++ stripJsWs ⟨[c]⟩
    rw [mk_append, ← String.append_assoc, stripJsWs_append]

/-- Scanner fold: flushed token text tracks the consumed characters up
to whitespace removal. -/
theorem tokenize_fold_strip (l : List Char) :
    ∀ st : List FootnoteToken × List Char,
      stripJsWs (tokensText (flushTokenBuffer (l.foldl tokenizeStep st)))
        = stripJsWs (tokensText (flushTokenBuffer st)) ++ stripJsWs ⟨l⟩ := by
  induction l with
  | nil =>
      intro st
      have h0 : stripJsWs ⟨([] : List Char)⟩ = "" := rfl
      rw [List.foldl_nil, h0, String.append_empty]
  | cons c t ih =>
      intro st
      rw [List.foldl_cons, ih (tokenizeStep st c), tokenizeStep_strip,
        String.append_assoc]
      congr 1
      rw [← stripJsWs_append, ← mk_append]
      rfl

theorem normalizeNewlines_strip (l : List Char) :
    (normalizeNewlines l).filter (fun c => !jsIsSpace c)
      = l.filter (fun c => !jsIsSpace c) := by
  induction l using normalizeNewlines.induct with
  | case1 => rfl
  | case2 rest ih =>
      simp only [normalizeNewlines, List.filter_cons]
      rw [if_neg (by decide : ¬((!jsIsSpace '\n') = true)),
        if_neg (by decide : ¬((!jsIsSpace '\r') = true))]
      exact ih
  | case3 rest hne ih =>
      simp only [normalizeNewlines, List.filter_cons]
      rw [if_neg (by decide : ¬((!jsIsSpace '\n') = true)),
        if_neg (by decide : ¬((!jsIsSpace '\r') = true))]
      exact ih
  | case4 c rest hne1 hne2 ih =>
      simp only [normalizeNewlines, List.filter_cons]
      by_cases hc : (!jsIsSpace c) = true
      · rw [if_pos hc, if_pos hc, ih]
      · rw [if_neg hc, if_neg hc]
        exact ih

theorem map_nbsp_strip (l : List Char) :
    (l.map nbspToSpace).filter (fun c => !jsIsSpace c)
      = l.filter (fun c => !jsIsSpace c) := by
  induction l with
  | nil => rfl
  | cons c t ih =>
      simp only [List.map_cons, List.filter_cons]
      by_cases hc : c = ' '
      · subst hc
        rw [show nbspToSpace ' ' = ' ' from rfl]
        rw [if_neg (by decide : ¬((!jsIsSpace ' ') = true)),
          if_neg (by decide : ¬((!jsIsSpace ' ') = true))]
        exact ih
      · have h1 : nbspToSpace c = c := by simp [nbspToSpace, hc]
        rw [h1]
        by_cases h2 : (!jsIsSpace c) = true
        · rw [if_pos h2, if_pos h2, ih]
        · rw [if_neg h2, if_neg h2]
          exact ih

/-- Tokenizing preserves the non-whitespace text. -/
theorem tokenizeFootnoteText_strip (s : String) :
    stripJsWs (tokensText (tokenizeFootnoteText s)) = stripJsWs s := by
  simp only [tokenizeFootnoteText]
  rw [tokenize_fold_strip]
  have h0 : stripJsWs (tokensText (flushTokenBuffer ([], []))) = "" := rfl
  rw [h0, String.empty_append]
  apply String.ext
  rw [stripJsWs_data, stripJsWs_data]
  exact (map_nbsp_strip (normalizeNewlines s.data)).trans
    (normalizeNewlines_strip s.data)

/-- `splitWordByWidth` partitions the word: the chunks concatenate back
to it. -/
theorem splitWordByWidth_join (measure : String → ℚ) (word : String)
    (maxWidthPt : ℚ) :
    String.join (splitWordByWidth measure word maxWidthPt) = word := by
  have main : ∀ (l : List Char) (s : List String × String),
      String.join ((l.foldl (splitWordStep measure maxWidthPt) s).1)
          ++ (l.foldl (splitWordStep measure maxWidthPt) s).2
        = String.join s.1 ++ s.2 ++ ⟨l⟩ := by
    intro l
    induction l with
    | nil =>
        intro s
        have h0 : (⟨([] : List Char)⟩ : String) = "" := rfl
        rw [List.foldl_nil, h0, String.append_empty]
    | cons g t ih =>
        intro s
        rw [List.foldl_cons, ih (splitWordStep measure maxWidthPt s g)]
        have hstep : String.join (splitWordStep measure maxWidthPt s g).1
              ++ (splitWordStep measure maxWidthPt s g).2
            = String.join s.1 ++ s.2 ++ ⟨[g]⟩ := by
          simp only [splitWordStep]
          by_cases hc : s.2 ≠ "" ∧ measure (s.2.push g) > maxWidthPt
          · rw [if_pos hc]
            have hsg : String.singleton g = (⟨[g]⟩ : String) := rfl
            show String.join (s.1 ++ [s.2]) ++ String.singleton g = _
            rw [hsg, join_append, join_singleton]
          · rw [if_neg hc]
            show String.join s.1 ++ s.2.push g = _
            rw [push_eq_append, String.append_assoc]
        rw [hstep, String.append_assoc, String.append_assoc, String.append_assoc]
        congr 2
  simp only [splitWordByWidth]
  by_cases he : word.data.isEmpty
  · rw [if_pos he]
    apply String.ext
    rw [data_join]
    simpa using (List.isEmpty_iff.mp he).symm
  · rw [if_neg he]
    have h := main word.data ([], "")
    rw [join_nil, String.empty_append, String.empty_append] at h
    have hdata : (⟨word.data⟩ : String) = word := rfl
    rw [hdata] at h
    by_cases hz : (word.data.foldl (splitWordStep measure maxWidthPt) ([], "")).2 = ""
    · rw [if_pos hz]
      rw [hz, String.append_empty] at h
      exact h
    · rw [if_neg hz]
      rw [join_append, join_singleton]
      exact h

/-- Space fragments carry only whitespace characters. -/
def SpaceFragsWs (l : List TextFragment) : Prop :=
  ∀ f ∈ l, f.isSpace = true → ∀ c ∈ f.text.data, jsIsSpace c = true

theorem lineText_nil : lineText [] = "" := rfl

theorem lineText_append (a b : List TextFragment) :
    lineText (a ++ b) = lineText a ++ lineText b := by
  simp only [lineText, List.map_append, join_append]

theorem lineText_singleton (f : TextFragment) : lineText [f] = f.text := by
  simp only [lineText, List.map_cons, List.map_nil]
  exact join_singleton f.text

/-- The text of a line of all-whitespace space fragments strips to
nothing. -/
theorem stripJsWs_lineText_ws (l : List TextFragment)
    (hsp : ∀ f ∈ l, f.isSpace = true)
    (hws : ∀ f ∈ l, ∀ c ∈ f.text.data, jsIsSpace c = true) :
    stripJsWs (lineText l) = "" := by
  induction l with
  | nil => rfl
  | cons f t ih =>
      have h1 : lineText (f :: t) = f.text ++ lineText t := by
        simp only [lineText, List.map_cons, join_cons]
      rw [h1, stripJsWs_append]
      rw [stripJsWs_eq_empty f.text (hws f (by simp) ), String.empty_append]
      exact ih (fun g hg => hsp g (List.mem_cons_of_mem f hg))
        (fun g hg => hws g (List.mem_cons_of_mem f hg))

/-- `mapLast` on a decomposed list rewrites only the final element. -/
theorem mapLast_concat {α : Type} (f : α → α) :
    ∀ (l : List α) (x : α), mapLast f (l ++ [x]) = l ++ [f x] := by
  intro l
  induction l with
  | nil => intro x; rfl
  | cons a t ih =>
      intro x
      cases t with
      | nil => rfl
      | cons b t2 =>
          show a :: mapLast f ((b :: t2) ++ [x]) = _
          rw [ih x]
          rfl

/-- `trimTrailingSpaces` preserves the stripped state text. -/
theorem trimTrailingSpaces_text (st : LayoutState)
    (hsp : SpaceFragsWs st.currentLine) :
    stripJsWs (stateText (trimTrailingSpaces st)) = stripJsWs (stateText st) ∧
    SpaceFragsWs (trimTrailingSpaces st).currentLine := by
  obtain ⟨hlines, hdec, hdsp, -⟩ := trimTrailingSpaces_decomp st
  constructor
  · simp only [stateText, hlines]
    rw [stripJsWs_append, stripJsWs_append]
    congr 1
    conv_rhs => rw [hdec]
    rw [lineText_append, stripJsWs_append]
    have hz : stripJsWs (lineText
        ((st.currentLine.reverse.takeWhile (·.isSpace)).reverse)) = "" := by
      refine stripJsWs_lineText_ws _ ?_ ?_
      · intro f hf
        exact hdsp f (List.mem_reverse.mp hf)
      · intro f hf c hc
        have hfm : f ∈ st.currentLine := by
          rw [hdec]
          exact List.mem_append_right _ hf
        exact hsp f hfm (hdsp f (List.mem_reverse.mp hf)) c hc
    rw [hz, String.append_empty]
  · intro f hf hfs c hc
    have hfm : f ∈ st.currentLine := by
      rw [hdec]
      exact List.mem_append_left _ hf
    exact hsp f hfm hfs c hc

/-- `commitLine` preserves the stripped state text. -/
theorem commitLine_text (b : Bool) (st : LayoutState)
    (hsp : SpaceFragsWs st.currentLine) :
    stripJsWs (stateText (commitLine b st)) = stripJsWs (stateText st) ∧
    SpaceFragsWs (commitLine b st).currentLine := by
  obtain ⟨htext, -⟩ := trimTrailingSpaces_text st hsp
  constructor
  · rw [← htext]
    simp only [commitLine, stateText]
    by_cases hc : (b || !(trimTrailingSpaces st).currentLine.isEmpty) = true
    · rw [if_pos hc]
      rw [List.map_append, join_append, List.map_cons, List.map_nil, join_singleton,
        lineText_nil, String.append_empty]
    · rw [if_neg hc]
      have hnil : (trimTrailingSpaces st).currentLine = [] := by
        rcases Bool.not_eq_true _ ▸ hc with h
        have h2 := (Bool.or_eq_false_iff.mp (by
          cases hb : (b || !(trimTrailingSpaces st).currentLine.isEmpty) with
          | true => exact absurd hb hc
          | false => rfl)).2
        have h3 : (trimTrailingSpaces st).currentLine.isEmpty = true := by
          cases hb2 : (trimTrailingSpaces st).currentLine.isEmpty with
          | true => rfl
          | false => rw [hb2] at h2; simp at h2
        exact List.isEmpty_iff.mp h3
      rw [hnil, lineText_nil]
  · intro f hf
    simp only [commitLine] at hf
    exact absurd hf (List.not_mem_nil f)

/-- `appendFragment` extends the state text exactly by the fragment
text, provided measuring never rejects nonempty text. -/
theorem appendFragment_text (measure : String → ℚ) (text : String)
    (href : Option String) (isSp : Bool) (st : LayoutState)
    (hpos : text ≠ "" → 0 < measure text)
    (hspText : isSp = true → ∀ c ∈ text.data, jsIsSpace c = true)
    (hsp : SpaceFragsWs st.currentLine) :
    stateText (appendFragment measure text href isSp st) = stateText st ++ text ∧
    SpaceFragsWs (appendFragment measure text href isSp st).currentLine := by
  by_cases h0 : text = ""
  · simp only [appendFragment, if_pos h0]
    refine ⟨?_, hsp⟩
    rw [h0, String.append_empty]
  simp only [appendFragment, if_neg h0]
  have hw : ¬ measure text ≤ 0 := not_le.mpr (hpos h0)
  simp only [if_neg hw]
  split
  next last heq =>
    rcases List.getLast?_eq_some_iff.mp heq with ⟨front, hfront⟩
    split
    next hcond =>
      -- merge into the last fragment
      constructor
      · simp only [stateText]
        rw [hfront, mapLast_concat, lineText_append, lineText_append,
          lineText_singleton, lineText_singleton]
        show _ ++ (lineText front ++ (last.text ++ text)) = _
        rw [← String.append_assoc, ← String.append_assoc, ← String.append_assoc]
      · intro f hf hfs c hc
        rw [hfront, mapLast_concat] at hf
        rcases List.mem_append.mp hf with hm | hm
        · refine hsp f ?_ hfs c hc
          rw [hfront]
          exact List.mem_append_left _ hm
        · have hfe := List.mem_singleton.mp hm
          have hlsp : last.isSpace = true := by
            have : f.isSpace = last.isSpace := by rw [hfe]
            rw [← this]
            exact hfs
          have hisp : isSp = true := by rw [← hcond.2]; exact hlsp
          have hcd : c ∈ (last.text ++ text).data := by
            have : f.text = last.text ++ text := by rw [hfe]
            rw [← this]
            exact hc
          rw [String.data_append] at hcd
          rcases List.mem_append.mp hcd with hcm | hcm
          · refine hsp last ?_ hlsp c hcm
            rw [hfront]
            exact List.mem_append_right _ (by simp)
          · exact hspText hisp c hcm
    next hcond =>
      -- push a new fragment
      constructor
      · simp only [stateText]
        rw [lineText_append, lineText_singleton]
        show _ ++ (lineText st.currentLine ++ text) = _
        rw [← String.append_assoc]
      · intro f hf hfs c hc
        rcases List.mem_append.mp hf with hm | hm
        · exact hsp f hm hfs c hc
        · have hfe := List.mem_singleton.mp hm
          have hisp : isSp = true := by
            have : f.isSpace = isSp := by rw [hfe]
            rw [← this]
            exact hfs
          have hcd : c ∈ text.data := by
            have : f.text = text := by rw [hfe]
            rw [← this]
            exact hc
          exact hspText hisp c hcd
  next heq =>
    constructor
    · simp only [stateText]
      have hnil : st.currentLine = [] := List.getLast?_eq_none_iff.mp heq
      rw [hnil, lineText_nil, lineText_singleton, String.append_empty]
    · intro f hf hfs c hc
      have hfe := List.mem_singleton.mp hf
      have hisp : isSp = true := by
        have : f.isSpace = isSp := by rw [hfe]
        rw [← this]
        exact hfs
      have hcd : c ∈ text.data := by
        have : f.text = text := by rw [hfe]
        rw [← this]
        exact hc
      exact hspText hisp c hcd

/-- `layoutChunk` extends the stripped state text by the chunk. -/
theorem layoutChunk_text (measure : String → ℚ) (maxWidthPt : ℚ)
    (href : Option String) (total : Nat) (st : LayoutState) (p : Nat × String)
    (hm : ∀ s : String, s ≠ "" → 0 < measure s)
    (hsp : SpaceFragsWs st.currentLine) :
    stripJsWs (stateText (layoutChunk measure maxWidthPt href total st p))
      = stripJsWs (stateText st) ++ stripJsWs p.2 ∧
    SpaceFragsWs (layoutChunk measure maxWidthPt href total st p).currentLine := by
  have hspv : (false : Bool) = true → ∀ c ∈ p.2.data, jsIsSpace c = true := by
    intro h
    exact absurd h (by simp)
  simp only [layoutChunk]
  by_cases h1 : st.currentWidth > 0 ∧ st.currentWidth + measure p.2 > maxWidthPt
  · rw [if_pos h1]
    obtain ⟨hc1, hc2⟩ := commitLine_text false st hsp
    obtain ⟨ha1, ha2⟩ := appendFragment_text measure p.2 href false
      (commitLine false st) (fun hne => hm p.2 hne) hspv hc2
    by_cases h2 : p.1 < total - 1
    · rw [if_pos h2]
      obtain ⟨hd1, hd2⟩ := commitLine_text false _ ha2
      refine ⟨?_, hd2⟩
      rw [hd1, ha1, stripJsWs_append, hc1]
    · rw [if_neg h2]
      refine ⟨?_, ha2⟩
      rw [ha1, stripJsWs_append, hc1]
  · rw [if_neg h1]
    obtain ⟨ha1, ha2⟩ := appendFragment_text measure p.2 href false st
      (fun hne => hm p.2 hne) hspv hsp
    by_cases h2 : p.1 < total - 1
    · rw [if_pos h2]
      obtain ⟨hd1, hd2⟩ := commitLine_text false _ ha2
      refine ⟨?_, hd2⟩
      rw [hd1, ha1, stripJsWs_append]
    · rw [if_neg h2]
      refine ⟨?_, ha2⟩
      rw [ha1, stripJsWs_append]

/-- `layoutWordOrSpace` extends the stripped state text by the token
text. -/
theorem layoutWordOrSpace_text (measure : String → ℚ) (maxWidthPt : ℚ)
    (href : Option String) (text : String) (isSp : Bool) (st : LayoutState)
    (hm : ∀ s : String, s ≠ "" → 0 < measure s)
    (hspText : isSp = true → ∀ c ∈ text.data, jsIsSpace c = true)
    (hsp : SpaceFragsWs st.currentLine) :
    stripJsWs (stateText (layoutWordOrSpace measure maxWidthPt href text isSp st))
      = stripJsWs (stateText st) ++ stripJsWs text ∧
    SpaceFragsWs (layoutWordOrSpace measure maxWidthPt href text isSp st).currentLine := by
  simp only [layoutWordOrSpace]
  by_cases h0 : text = ""
  · rw [if_pos h0]
    refine ⟨?_, hsp⟩
    rw [h0, stripJsWs_empty, String.append_empty]
  rw [if_neg h0]
  by_cases h1 : isSp = true ∧ st.currentWidth ≤ 0
  · rw [if_pos h1]
    refine ⟨?_, hsp⟩
    rw [stripJsWs_eq_empty text (hspText h1.1), String.append_empty]
  rw [if_neg h1]
  by_cases h2 : ¬isSp = true ∧ measure text > maxWidthPt
  · rw [if_pos h2]
    have hfold : ∀ (ps : List (Nat × String)) (st2 : LayoutState),
        SpaceFragsWs st2.currentLine →
        stripJsWs (stateText (ps.foldl
            (layoutChunk measure maxWidthPt href
              (splitWordByWidth measure text maxWidthPt).length) st2))
          = stripJsWs (stateText st2)
            ++ stripJsWs (String.join (ps.map (·.2))) ∧
        SpaceFragsWs (ps.foldl
            (layoutChunk measure maxWidthPt href
              (splitWordByWidth measure text maxWidthPt).length) st2).currentLine := by
      intro ps
      induction ps with
      | nil =>
          intro st2 hsp2
          refine ⟨?_, hsp2⟩
          rw [List.foldl_nil, List.map_nil, join_nil, stripJsWs_empty,
            String.append_empty]
      | cons x t ih =>
          intro st2 hsp2
          obtain ⟨hx1, hx2⟩ := layoutChunk_text measure maxWidthPt href
            (splitWordByWidth measure text maxWidthPt).length st2 x hm hsp2
          obtain ⟨ht1, ht2⟩ := ih _ hx2
          refine ⟨?_, ht2⟩
          rw [List.foldl_cons, ht1, hx1, List.map_cons, join_cons,
            stripJsWs_append, String.append_assoc]
    have henum : ((splitWordByWidth measure text maxWidthPt).enum.map (·.2))
        = splitWordByWidth measure text maxWidthPt := by
      have general : ∀ (l : List String) (n : Nat),
          ((l.enumFrom n).map (·.2)) = l := by
        intro l
        induction l with
        | nil => intro n; rfl
        | cons a t ih =>
            intro n
            simp only [List.enumFrom, List.map_cons]
            rw [ih (n + 1)]
      exact general _ 0
    obtain ⟨hf1, hf2⟩ := hfold (splitWordByWidth measure text maxWidthPt).enum st hsp
    refine ⟨?_, hf2⟩
    rw [hf1, henum, splitWordByWidth_join]
  · rw [if_neg h2]
    by_cases h3 : st.currentWidth > 0 ∧ st.currentWidth + measure text > maxWidthPt
    · rw [if_pos h3]
      obtain ⟨hc1, hc2⟩ := commitLine_text false st hsp
      by_cases h4 : isSp = true
      · rw [if_pos h4]
        refine ⟨?_, hc2⟩
        rw [hc1, stripJsWs_eq_empty text (hspText h4), String.append_empty]
      · rw [if_neg h4]
        obtain ⟨ha1, ha2⟩ := appendFragment_text measure text href isSp
          (commitLine false st) (fun hne => hm text hne) hspText hc2
        refine ⟨?_, ha2⟩
        rw [ha1, stripJsWs_append, hc1]
    · rw [if_neg h3]
      obtain ⟨ha1, ha2⟩ := appendFragment_text measure text href isSp st
        (fun hne => hm text hne) hspText hsp
      refine ⟨?_, ha2⟩
      rw [ha1, stripJsWs_append]

/-- `layoutToken` extends the stripped state text by the token text. -/
theorem layoutToken_text (measure : String → ℚ) (maxWidthPt : ℚ)
    (href : Option String) (st : LayoutState) (tok : FootnoteToken)
    (hm : ∀ s : String, s ≠ "" → 0 < measure s)
    (hsp : SpaceFragsWs st.currentLine) :
    stripJsWs (stateText (layoutToken measure maxWidthPt href st tok))
      = stripJsWs (stateText st) ++ stripJsWs (tokText tok) ∧
    SpaceFragsWs (layoutToken measure maxWidthPt href st tok).currentLine := by
  cases tok with
  | newline =>
      simp only [layoutToken]
      obtain ⟨h1, h2⟩ := commitLine_text true st hsp
      refine ⟨?_, h2⟩
      rw [h1]
      show _ = _ ++ stripJsWs ""
      rw [stripJsWs_empty, String.append_empty]
  | space =>
      simp only [layoutToken]
      refine layoutWordOrSpace_text measure maxWidthPt href " " true st hm ?_ hsp
      intro _ c hc
      have : c = ' ' := by simpa using hc
      rw [this]
      decide
  | text s =>
      simp only [layoutToken]
      refine layoutWordOrSpace_text measure maxWidthPt href s false st hm ?_ hsp
      intro hcontra
      exact absurd hcontra (by simp)

/-- Token fold: the stripped state text grows by the tokens' text. -/
theorem layoutTokens_fold_text (measure : String → ℚ) (maxWidthPt : ℚ)
    (href : Option String)
    (hm : ∀ s : String, s ≠ "" → 0 < measure s) :
    ∀ (toks : List FootnoteToken) (st : LayoutState),
      SpaceFragsWs st.currentLine →
      stripJsWs (stateText (toks.foldl (layoutToken measure maxWidthPt href) st))
        = stripJsWs (stateText st) ++ stripJsWs (tokensText toks) ∧
      SpaceFragsWs (toks.foldl (layoutToken measure maxWidthPt href) st).currentLine := by
  intro toks
  induction toks with
  | nil =>
      intro st hsp
      refine ⟨?_, hsp⟩
      rw [List.foldl_nil, tokensText_nil, stripJsWs_empty, String.append_empty]
  | cons x t ih =>
      intro st hsp
      obtain ⟨hx1, hx2⟩ := layoutToken_text measure maxWidthPt href st x hm hsp
      obtain ⟨ht1, ht2⟩ := ih _ hx2
      refine ⟨?_, ht2⟩
      rw [List.foldl_cons, ht1, hx1, tokensText_cons, stripJsWs_append,
        String.append_assoc]

/-- `layoutSegment` extends the stripped state text by the segment text. -/
theorem layoutSegment_text (measure : String → ℚ) (maxWidthPt : ℚ)
    (st : LayoutState) (seg : Segment)
    (hm : ∀ s : String, s ≠ "" → 0 < measure s)
    (hsp : SpaceFragsWs st.currentLine) :
    stripJsWs (stateText (layoutSegment measure maxWidthPt st seg))
      = stripJsWs (stateText st) ++ stripJsWs seg.text ∧
    SpaceFragsWs (layoutSegment measure maxWidthPt st seg).currentLine := by
  simp only [layoutSegment]
  obtain ⟨h1, h2⟩ := layoutTokens_fold_text measure maxWidthPt seg.href hm
    (tokenizeFootnoteText seg.text) st hsp
  refine ⟨?_, h2⟩
  rw [h1, tokenizeFootnoteText_strip]

/-- C7 (amended): wrap-then-unwrap is the identity on the
whitespace-stripped text: the concatenation of the fragment texts of all
lines produced by `layoutFootnoteSegments` equals the concatenated
segment text after removing all whitespace from both, for any metric
oracle that gives nonempty strings positive width. -/
theorem layoutFootnoteSegments_text_roundtrip (measure : String → ℚ)
    (segments : List Segment) (maxWidthPt : ℚ)
    (hm : ∀ s : String, s ≠ "" → 0 < measure s) :
    stripJsWs (String.join
        ((layoutFootnoteSegments measure segments maxWidthPt).map lineText))
      = stripJsWs (String.join (segments.map (·.text))) := by
  have hfold : ∀ (segs : List Segment) (st : LayoutState),
      SpaceFragsWs st.currentLine →
      stripJsWs (stateText (segs.foldl (layoutSegment measure maxWidthPt) st))
        = stripJsWs (stateText st) ++ stripJsWs (String.join (segs.map (·.text))) ∧
      SpaceFragsWs (segs.foldl (layoutSegment measure maxWidthPt) st).currentLine := by
    intro segs
    induction segs with
    | nil =>
        intro st hsp
        refine ⟨?_, hsp⟩
        rw [List.foldl_nil, List.map_nil, join_nil, stripJsWs_empty,
          String.append_empty]
    | cons x t ih =>
        intro st hsp
        obtain ⟨hx1, hx2⟩ := layoutSegment_text measure maxWidthPt st x hm hsp
        obtain ⟨ht1, ht2⟩ := ih _ hx2
        refine ⟨?_, ht2⟩
        rw [List.foldl_cons, ht1, hx1, List.map_cons, join_cons,
          stripJsWs_append, String.append_assoc]
  have hinit : SpaceFragsWs ([] : List TextFragment) := by
    intro f hf
    exact absurd hf (List.not_mem_nil f)
  obtain ⟨hf1, hf2⟩ := hfold segments ⟨[], [], 0⟩ hinit
  have hinit_text : stateText ⟨[], [], 0⟩ = "" := rfl
  rw [hinit_text, stripJsWs_empty, String.empty_append] at hf1
  obtain ⟨ht1, -⟩ := trimTrailingSpaces_text
    (segments.foldl (layoutSegment measure maxWidthPt) ⟨[], [], 0⟩) hf2
  rw [hf1] at ht1
  -- the returned line list joins to the trimmed state text
  have hout : String.join
      ((layoutFootnoteSegments measure segments maxWidthPt).map lineText)
    = stateText (trimTrailingSpaces
        (segments.foldl (layoutSegment measure maxWidthPt) ⟨[], [], 0⟩)) := by
    simp only [layoutFootnoteSegments, stateText]
    by_cases hc1 : (trimTrailingSpaces
        (segments.foldl (layoutSegment measure maxWidthPt) ⟨[], [], 0⟩)).currentLine.isEmpty
    · simp only [if_pos hc1]
      have hnil := List.isEmpty_iff.mp hc1
      rw [hnil, lineText_nil, String.append_empty]
      by_cases hc2 : (trimTrailingSpaces
          (segments.foldl (layoutSegment measure maxWidthPt) ⟨[], [], 0⟩)).lines.isEmpty
      · rw [if_pos hc2]
        rw [List.isEmpty_iff.mp hc2]
        rfl
      · rw [if_neg hc2]
    · simp only [if_neg hc1]
      rw [if_neg (by simp)]
      rw [List.map_append, join_append, List.map_cons, List.map_nil, join_singleton]
  rw [hout, ht1]

/-- C7: the literal claim fails: laying out the single segment `" "`
yields one empty line, so the concatenated fragment text is `""`, not
the original `" "` (leading/trailing whitespace and whitespace runs are
collapsed by the tokenizer and the line trimmer). -/
theorem layoutFootnoteSegments_text_counterexample :
    String.join ((layoutFootnoteSegments (fun s => (s.data.length : ℚ))
        [⟨" ", none⟩] 100).map lineText)
      ≠ String.join (([⟨" ", none⟩] : List Segment).map (·.text)) := by
  have h2 : tokenizeFootnoteText " " = [FootnoteToken.space] := by decide
  have h3 : layoutWordOrSpace (fun s => (s.data.length : ℚ)) 100 none " " true
      ⟨[], [], 0⟩ = ⟨[], [], 0⟩ := by
    simp only [layoutWordOrSpace]
    rw [if_neg (by decide : ¬(" " = ""))]
    rw [if_pos (by norm_num)]
  have h4 : layoutFootnoteSegments (fun s => (s.data.length : ℚ))
      [⟨" ", none⟩] 100 = [[]] := by
    simp only [layoutFootnoteSegments, layoutSegment, List.foldl_cons,
      List.foldl_nil, h2, layoutToken]
    rw [h3]
    rfl
  rw [h4]
  intro hcontra
  have : ("" : String) = " " := by
    have hl : String.join ([([] : List TextFragment)].map lineText) = "" := rfl
    have hr : String.join (([⟨" ", none⟩] : List Segment).map (·.text)) = " " := by
      show String.join [" "] = " "
      exact join_singleton " "
    rw [hl, hr] at hcontra
    exact hcontra
  simp at this

/-- Concrete instantiation of the amended C7 theorem at the
character-count metric. -/
theorem layoutFootnoteSegments_text_roundtrip_witness :
    (∀ s : String, s ≠ "" → 0 < ((s.data.length : ℚ))) ∧
    stripJsWs (String.join ((layoutFootnoteSegments
          (fun s => (s.data.length : ℚ)) [⟨"ab", none⟩] 10).map lineText))
      = stripJsWs (String.join (([⟨"ab", none⟩] : List Segment).map (·.text))) := by
  have hm : ∀ s : String, s ≠ "" → 0 < ((s.data.length : ℚ)) := by
    intro s hs
    have hne : s.data ≠ [] := by
      intro h
      exact hs (String.ext (by rw [h]))
    have hp : 0 < s.data.length := List.length_pos.mpr hne
    exact_mod_cast hp
  exact ⟨hm, layoutFootnoteSegments_text_roundtrip _ _ _ hm⟩

/-! ### C5: frame and additivity of the injection paths -/

theorem listModify_length {α : Type} (l : List α) (i : Nat) (f : α → α) :
    (listModify l i f).length = l.length := by
  simp only [listModify]
  rcases h : l.get? i with _ | x
  · rfl
  · simp [List.length_set]

theorem listModify_get?_ne {α : Type} (l : List α) (i j : Nat) (f : α → α)
    (h : j ≠ i) :
    (listModify l i f).get? j = l.get? j := by
  simp only [listModify]
  rcases hg : l.get? i with _ | x
  · rfl
  · rw [List.get?_eq_getElem?, List.get?_eq_getElem?,
      List.getElem?_set_ne (fun he => h he.symm)]

theorem listModify_get?_eq {α : Type} (l : List α) (i : Nat) (f : α → α) :
    (listModify l i f).get? i = (l.get? i).map f := by
  simp only [listModify]
  rcases hg : l.get? i with _ | x
  · exact hg
  · have hlt : i < l.length := by
      rw [List.get?_eq_getElem?] at hg
      exact (List.getElem?_eq_some_iff.mp hg).1
    show (l.set i (f x)).get? i = some (f x)
    rw [List.get?_eq_getElem?, List.getElem?_set_self hlt]

/-- A page evolved additively: geometry and link-free fields unchanged,
annotation array and content stream only appended to. -/
def PageExtends (p p2 : PdfPage) : Prop :=
  p2.width = p.width ∧ p2.height = p.height ∧
  (∃ suf, p2.annots.getD [] = p.annots.getD [] ++ suf) ∧
  (∃ suf, p2.content = p.content ++ suf)

/-- A document evolved additively while touching only pages in
`touched`: the page count is unchanged, untouched pages are exactly
unchanged, every page evolved additively, and no named destination that
existed before is lost. -/
def DocExtendsOn (touched : Nat → Prop) (base doc : PdfDoc) : Prop :=
  doc.pages.length = base.pages.length ∧
  (∀ i, ¬touched i → doc.pages.get? i = base.pages.get? i) ∧
  (∀ i p, base.pages.get? i = some p →
    ∃ p2, doc.pages.get? i = some p2 ∧ PageExtends p p2) ∧
  (∀ name dest, alistGet (base.dests.getD []) name = some dest →
    ∃ d2, alistGet (doc.dests.getD []) name = some d2)

theorem pageExtends_refl (p : PdfPage) : PageExtends p p :=
  ⟨rfl, rfl, ⟨[], (List.append_nil _).symm⟩, ⟨[], (List.append_nil _).symm⟩⟩

theorem pageExtends_trans {a b c : PdfPage} (h1 : PageExtends a b)
    (h2 : PageExtends b c) : PageExtends a c := by
  obtain ⟨w1, hh1, ⟨s1, ha1⟩, ⟨t1, hc1⟩⟩ := h1
  obtain ⟨w2, hh2, ⟨s2, ha2⟩, ⟨t2, hc2⟩⟩ := h2
  exact ⟨w2.trans w1, hh2.trans hh1,
    ⟨s1 ++ s2, by rw [ha2, ha1, List.append_assoc]⟩,
    ⟨t1 ++ t2, by rw [hc2, hc1, List.append_assoc]⟩⟩

theorem docExtendsOn_refl (touched : Nat → Prop) (doc : PdfDoc) :
    DocExtendsOn touched doc doc :=
  ⟨rfl, fun _ _ => rfl, fun _ p hp => ⟨p, hp, pageExtends_refl p⟩,
    fun _ dest h => ⟨dest, h⟩⟩

theorem docExtendsOn_trans {touched : Nat → Prop} {a b c : PdfDoc}
    (h1 : DocExtendsOn touched a b) (h2 : DocExtendsOn touched b c) :
    DocExtendsOn touched a c := by
  obtain ⟨l1, f1, e1, d1⟩ := h1
  obtain ⟨l2, f2, e2, d2⟩ := h2
  refine ⟨l2.trans l1, fun i hi => (f2 i hi).trans (f1 i hi), ?_, ?_⟩
  · intro i p hp
    obtain ⟨p2, hp2, he⟩ := e1 i p hp
    obtain ⟨p3, hp3, he2⟩ := e2 i p2 hp2
    exact ⟨p3, hp3, pageExtends_trans he he2⟩
  · intro name dest h
    obtain ⟨d2v, hd⟩ := d1 name dest h
    exact d2 name d2v hd

/-- Modifying one touched page through a page-additive function is a
document-additive step. -/
theorem modifyPdfPage_extends (touched : Nat → Prop) (doc : PdfDoc) (i : Nat)
    (f : PdfPage → PdfPage) (hi : touched i)
    (hf : ∀ p, PageExtends p (f p)) :
    DocExtendsOn touched doc (modifyPdfPage doc i f) := by
  refine ⟨?_, ?_, ?_, fun _ dest h => ⟨dest, h⟩⟩
  · exact listModify_length doc.pages i f
  · intro j hj
    exact listModify_get?_ne doc.pages i j f (fun he => hj (he ▸ hi))
  · intro j p hp
    by_cases hji : j = i
    · subst hji
      refine ⟨f p, ?_, hf p⟩
      show (listModify doc.pages j f).get? j = some (f p)
      rw [listModify_get?_eq, hp]
      rfl
    · refine ⟨p, ?_, pageExtends_refl p⟩
      show (listModify doc.pages i f).get? j = some p
      rw [listModify_get?_ne doc.pages i j f hji]
      exact hp

theorem appendContentOp_extends (touched : Nat → Prop) (doc : PdfDoc)
    (i : Nat) (op : PdfContentOp) (hi : touched i) :
    DocExtendsOn touched doc (appendContentOp doc i op) :=
  modifyPdfPage_extends touched doc i _ hi (fun _ =>
    ⟨rfl, rfl, ⟨[], (List.append_nil _).symm⟩, ⟨[op], rfl⟩⟩)

theorem ensurePdfPageAnnotationsArray_extends (touched : Nat → Prop)
    (doc : PdfDoc) (i : Nat) (hi : touched i) :
    DocExtendsOn touched doc (ensurePdfPageAnnotationsArray doc i) :=
  modifyPdfPage_extends touched doc i _ hi (fun p =>
    ⟨rfl, rfl, ⟨[], by simp⟩, ⟨[], (List.append_nil _).symm⟩⟩)

theorem pushPageAnnot_extends (touched : Nat → Prop) (doc : PdfDoc)
    (i : Nat) (a : PdfAnnot) (hi : touched i) :
    DocExtendsOn touched doc (pushPageAnnot doc i a) :=
  modifyPdfPage_extends touched doc i _ hi (fun p =>
    ⟨rfl, rfl, ⟨[a], by simp⟩, ⟨[], (List.append_nil _).symm⟩⟩)

theorem ensurePdfDestinationsDict_extends (touched : Nat → Prop)
    (doc : PdfDoc) :
    DocExtendsOn touched doc (ensurePdfDestinationsDict doc) := by
  refine ⟨rfl, fun _ _ => rfl, fun _ p hp => ⟨p, hp, pageExtends_refl p⟩, ?_⟩
  intro name dest h
  exact ⟨dest, h⟩

theorem setPdfNamedDestination_extends (touched : Nat → Prop)
    (pdfNameOk : String → Bool) (encode : String → String) (doc : PdfDoc)
    (destinationName : String) (pageIndex : Nat) (xPt yPt : ℚ) :
    DocExtendsOn touched doc
      (setPdfNamedDestination pdfNameOk encode doc destinationName pageIndex xPt yPt) := by
  simp only [setPdfNamedDestination]
  split
  · exact docExtendsOn_refl touched doc
  next key heq =>
    refine ⟨rfl, fun _ _ => rfl, fun _ p hp => ⟨p, hp, pageExtends_refl p⟩, ?_⟩
    intro name dest h
    show ∃ d2, alistGet (alistSet (doc.dests.getD []) key
      ⟨pageIndex, quantize2 xPt, quantize2 yPt⟩) name = some d2
    by_cases hnm : name = key
    · subst hnm
      exact ⟨_, alistGet_set_self _ _ _⟩
    · rw [alistGet_set_ne _ _ _ _ hnm]
      exact ⟨dest, h⟩

theorem addPdfLinkAnnot_extends (touched : Nat → Prop)
    (pdfNameOk : String → Bool) (encode : String → String) (doc : PdfDoc)
    (i : Nat) (rect : ℚ × ℚ × ℚ × ℚ) (linkSpec : LinkSpec) (hi : touched i) :
    DocExtendsOn touched doc (addPdfLinkAnnot pdfNameOk encode doc i rect linkSpec) := by
  simp only [addPdfLinkAnnot]
  split
  · exact docExtendsOn_refl touched doc
  split
  · exact pushPageAnnot_extends touched doc i _ hi
  · split
    · exact docExtendsOn_refl touched doc
    · exact pushPageAnnot_extends touched doc i _ hi

/-- C5 (amended): both injection paths only edit additively.  The
direct drawing path touches exactly the pages some plan resolves to:
pages with no footnote plan are unmodified, page annotation arrays and
content streams only grow, and existing named destinations are never
removed.  The overlay compositing path is additive in the same sense,
but it touches every page below `min(totalPages, overlayPageCount)` —
including pages with no footnote plan (it draws the overlay page and
re-parents its annotations unconditionally), which refutes the literal
claim. -/
theorem footnoteInjection_frame_additive (measure : String → ℚ)
    (pdfNameOk : String → Bool) (encode : String → String)
    (decode : String → Option String) (doc0 : PdfDoc)
    (plans : List FinalPagePlan) (options : InjectOptions)
    (baseDoc : PdfDoc) (overlayAnnots : List (Option (List Nat)))
    (coords : List OverlayDestCoord) (plans2 : List FinalPagePlan) :
    DocExtendsOn (fun i => ∃ plan ∈ plans, plan.finalPage = (i : Int) + 1)
      doc0 (injectFootnotesIntoPdf measure pdfNameOk encode decode doc0 plans options) ∧
    DocExtendsOn (fun i => i < min baseDoc.pages.length overlayAnnots.length)
      baseDoc (injectFootnotesOverlayMerge pdfNameOk encode baseDoc
        overlayAnnots coords plans2) := by
  constructor
  · -- direct path
    simp only [injectFootnotesIntoPdf]
    by_cases hempty : plans.isEmpty
    · rw [if_pos hempty]
      exact docExtendsOn_refl _ doc0
    rw [if_neg hempty]
    refine foldl_mem_inv _
      (fun st : PdfDoc × List String =>
        DocExtendsOn (fun i => ∃ plan ∈ plans, plan.finalPage = (i : Int) + 1)
          doc0 st.1) plans _
      (ensurePdfDestinationsDict_extends _ doc0) ?_
    intro st pp hmem hPst
    dsimp only
    split
    · exact hPst
    · split
      · -- the target page does not exist
        exact hPst
      · -- some page
        have htouched : ∃ plan ∈ plans, plan.finalPage
            = ((pp.finalPage - 1).toNat : Int) + 1 := by
          refine ⟨pp, hmem, ?_⟩
          have h0 : (0 : Int) ≤ pp.finalPage - 1 := by omega
          rw [Int.toNat_of_nonneg h0]
          omega
        split
        · exact hPst
        · refine foldl_mem_inv _
            (fun ist : PdfDoc × List String × ℚ =>
              DocExtendsOn (fun i => ∃ plan ∈ plans, plan.finalPage = (i : Int) + 1)
                doc0 ist.1) _ _
            (docExtendsOn_trans hPst
              (appendContentOp_extends _ st.1 _ _ htouched)) ?_
          intro ist ip hipmem hPist
          dsimp only
          split
          · exact hPist
          · refine foldl_mem_inv _
              (fun lst : PdfDoc × ℚ =>
                DocExtendsOn (fun i => ∃ plan ∈ plans, plan.finalPage = (i : Int) + 1)
                  doc0 lst.1) _ _
              (docExtendsOn_trans hPist
                (setPdfNamedDestination_extends _ pdfNameOk encode ist.1
                  ip.2.item.destName _ _ _)) ?_
            intro lst line hlmem hPlst
            dsimp only
            split
            · exact hPlst
            · refine foldl_mem_inv _
                (fun fst : PdfDoc × ℚ =>
                  DocExtendsOn (fun i => ∃ plan ∈ plans, plan.finalPage = (i : Int) + 1)
                    doc0 fst.1) _ _ hPlst ?_
              intro fst fragment hfmem hPfst
              dsimp only
              split
              · exact hPfst
              · split
                · -- href present
                  split
                  · -- visible text
                    split
                    · -- link resolved: append text op, then the link annotation
                      exact docExtendsOn_trans
                        (docExtendsOn_trans hPfst
                          (appendContentOp_extends _ fst.1 _ _ htouched))
                        (addPdfLinkAnnot_extends _ pdfNameOk encode _ _ _ _ htouched)
                    · exact docExtendsOn_trans hPfst
                        (appendContentOp_extends _ fst.1 _ _ htouched)
                  · exact docExtendsOn_trans hPfst
                      (appendContentOp_extends _ fst.1 _ _ htouched)
                · exact docExtendsOn_trans hPfst
                    (appendContentOp_extends _ fst.1 _ _ htouched)
  · -- overlay path
    simp only [injectFootnotesOverlayMerge]
    by_cases h1 : plans2.isEmpty
    · rw [if_pos h1]
      exact docExtendsOn_refl _ baseDoc
    rw [if_neg h1]
    by_cases h2 : baseDoc.pages.length = 0
    · rw [if_pos h2]
      exact docExtendsOn_refl _ baseDoc
    rw [if_neg h2]
    by_cases h3 : min baseDoc.pages.length overlayAnnots.length = 0
    · rw [if_pos h3]
      exact docExtendsOn_refl _ baseDoc
    rw [if_neg h3]
    refine foldl_mem_inv _
      (fun st : PdfDoc × List String =>
        DocExtendsOn (fun i => i < min baseDoc.pages.length overlayAnnots.length)
          baseDoc st.1) coords _
      (docExtendsOn_trans ?_ (ensurePdfDestinationsDict_extends _ _)) ?_
    · -- the page-merge fold is additive and touches only merged pages
      refine foldl_mem_inv _
        (fun doc : PdfDoc =>
          DocExtendsOn (fun i => i < min baseDoc.pages.length overlayAnnots.length)
            baseDoc doc) _ baseDoc (docExtendsOn_refl _ baseDoc) ?_
      intro doc pageIndex hpmem hPdoc
      have hlt : pageIndex < min baseDoc.pages.length overlayAnnots.length :=
        List.mem_range.mp hpmem
      split
      · -- overlay annotations for this page: re-parent and push them
        refine foldl_mem_inv _
          (fun d : PdfDoc =>
            DocExtendsOn (fun i => i < min baseDoc.pages.length overlayAnnots.length)
              baseDoc d) _ _
          (docExtendsOn_trans hPdoc
            (docExtendsOn_trans (appendContentOp_extends _ doc pageIndex _ hlt)
              (ensurePdfPageAnnotationsArray_extends _ _ pageIndex hlt))) ?_
        intro d aid haidmem hPd
        exact docExtendsOn_trans hPd (pushPageAnnot_extends _ d pageIndex _ hlt)
      · exact docExtendsOn_trans hPdoc
          (appendContentOp_extends _ doc pageIndex _ hlt)
    · intro st dest hdmem hPst
      split
      · exact hPst
      split
      · exact hPst
      split
      · exact hPst
      split
      · exact hPst
      · exact docExtendsOn_trans hPst
          (setPdfNamedDestination_extends _ pdfNameOk encode st.1 dest.destName _ _ _)

/-- C5: the literal claim fails on the overlay path: with a two-page
base document and a two-page overlay, a footnote plan only for page 1
still modifies page index 1 (the overlay page is drawn onto every page
below `min(totalPages, overlayPageCount)`, plan or not). -/
theorem footnoteInjection_frame_counterexample :
    (∀ plan ∈ ([⟨1, []⟩] : List FinalPagePlan), plan.finalPage ≠ (1 : Int) + 1) ∧
    (injectFootnotesOverlayMerge (fun _ => true) (fun s => s)
        ⟨[⟨100, 200, none, []⟩, ⟨100, 200, none, []⟩], none⟩
        [none, none] [] [⟨1, []⟩]).pages.get? 1
      ≠ (⟨[⟨100, 200, none, []⟩, ⟨100, 200, none, []⟩], none⟩ : PdfDoc).pages.get? 1 := by
  constructor
  · intro plan hplan
    rw [List.mem_singleton.mp hplan]
    decide
  · decide

end WikiPdfExport
